import Mathlib

/-!
Verification of the relational_tags graph engine (python implementation,
`src/python/relational_tags/__init__.py`) against its specification.

The python module keeps process-wide state: `RelationalTag.all_tags`, a dict
from normalized tag name to tag object, and `RelationalTag._tagged_entities`,
a dict from entity to a dict from tag to the stored inverse connection.  The
shallow embedding below makes that state explicit as a `Registry` value and
translates each classmethod into a function on registries.  Python dicts are
modelled as insertion-ordered association lists (updating an existing key
keeps its position, a fresh key is appended, `del` removes the entry), which
matches CPython dict semantics.  Python exceptions are modelled with
`Except`: a `RelationalTagError` carries its type code, and the uncaught
interpreter-level exceptions that some code paths raise (`KeyError`,
`NameError`, `AttributeError`) are separate error values.

Tag objects compare and hash by name (`RelationalTag.__eq__` and `__hash__`),
so a tag endpoint is represented by its name.  Entities are represented by
their hashable identity: either a plain string value, or an instance of a
registered `RelationalEntity` subclass identified by its class name and its
serialized payload.
-/

/-- Connection type codes, from `RelationalTagConnection`: the three tag-tag
types and the two tag-entity types. -/
inductive ConnType where
  | toTagUndirected
  | toTagParent
  | toTagChild
  | toEnt
  | entToTag
deriving DecidableEq, Repr

/-- Membership in `RelationalTagConnection._TAG_TAG_TYPES`. -/
def ConnType.isTagTag : ConnType → Bool
  | .toTagUndirected => true
  | .toTagParent => true
  | .toTagChild => true
  | _ => false

/-- Membership in `RelationalTagConnection._TAG_ENT_TYPES`. -/
def ConnType.isTagEnt : ConnType → Bool
  | .toEnt => true
  | .entToTag => true
  | _ => false

/-- The python `RelationalTagConnection.inverse_type`: parent and child swap,
to-entity and entity-to-tag swap, anything else is returned unchanged. -/
def inverse_type : ConnType → ConnType
  | .toTagParent => .toTagChild
  | .toTagChild => .toTagParent
  | .toEnt => .entToTag
  | .entToTag => .toEnt
  | t => t

/-- An entity value, identified by its hashable identity.  A `str` entity is a
plain hashable python value such as a string; a `rent` entity is an instance
of a `RelationalEntity` subclass, identified by its class name and its
serialized payload (the protocol requires `__hash__`, `__eq__`, `__str__` and
`load_entity` to agree with this identity). -/
inductive Ent where
  | str (s : String)
  | rent (cls : String) (data : String)
deriving DecidableEq, Repr

/-- A node of the graph: a `RelationalTag` object (identified by its name,
since tags hash and compare by name) or an entity. -/
inductive Node where
  | tag (name : String)
  | ent (e : Ent)
deriving DecidableEq, Repr

/-- The python `isinstance(x, RelationalTag)` test on a node. -/
def Node.isTag : Node → Bool
  | .tag _ => true
  | .ent _ => false

/-- A `RelationalTagConnection` record: source, target and type. -/
structure Conn where
  source : Node
  target : Node
  type : ConnType
deriving DecidableEq, Repr

/-- `RelationalTagError` type codes. -/
inductive RTType where
  | collision
  | missing
  | wrongType
  | hashFail
  | format
deriving DecidableEq, Repr

/-- An exception as raised by the python code: a `RelationalTagError` with its
type code, or one of the interpreter-level exceptions that escape from some
code paths. -/
inductive PyErr where
  | rtError (t : RTType)
  | keyError
  | nameError
  | attributeError
  | jsonDecodeError
deriving DecidableEq, Repr

/-- The validation performed by `RelationalTagConnection.__init__`: assigns
source, target and type, then raises `RelationalTagError` with
`TYPE_WRONG_TYPE` for an invalid endpoint and type combination.
Returns the constructed connection on success. -/
def mkConn (source target : Node) (connection_type : ConnType) :
    Except PyErr Conn :=
  let c : Conn := ⟨source, target, connection_type⟩
  let source_tag := source.isTag
  let target_tag := target.isTag
  let type_tag := c.type.isTagTag
  let type_ent := c.type.isTagEnt
  if source_tag && target_tag then
    if !type_tag then .error (.rtError .wrongType) else .ok c
  else if !source_tag && !target_tag then
    .error (.rtError .wrongType)
  else
    if !type_ent then .error (.rtError .wrongType)
    else if source_tag && connection_type = ConnType.entToTag then
      .error (.rtError .wrongType)
    else if target_tag && connection_type = ConnType.toEnt then
      .error (.rtError .wrongType)
    else .ok c

/-- The combination of endpoints and type that claim C3 says is valid. -/
def validCombo (source target : Node) (t : ConnType) : Prop :=
  (source.isTag = true ∧ target.isTag = true ∧ t.isTagTag = true) ∨
  (source.isTag = true ∧ target.isTag = false ∧ t = ConnType.toEnt) ∨
  (source.isTag = false ∧ target.isTag = true ∧ t = ConnType.entToTag)

instance (source target : Node) (t : ConnType) :
    Decidable (validCombo source target t) := by
  unfold validCombo; infer_instance

/-- C3: constructing a connection from source, target and type succeeds
exactly on the valid combinations (both endpoints tags with a tag-tag type;
tag source and entity target with type to-entity; entity source and tag
target with type entity-to-tag), and every other combination fails with a
`RelationalTagError` of type `TYPE_WRONG_TYPE`. -/
theorem mkConn_wrongType_iff_invalid (source target : Node) (t : ConnType) :
    (validCombo source target t ∧ mkConn source target t = .ok ⟨source, target, t⟩) ∨
    (¬ validCombo source target t ∧
      mkConn source target t = .error (.rtError .wrongType)) := by
  cases source <;> cases target <;> cases t <;> simp [mkConn, validCombo, Node.isTag,
    ConnType.isTagTag, ConnType.isTagEnt]

/-! ## Association lists modelling python dicts

CPython dicts are insertion ordered: assigning to an existing key keeps its
position, assigning a fresh key appends, and `del` removes the entry. -/

/-- Dict lookup. -/
def alGet {α β : Type} [DecidableEq α] : List (α × β) → α → Option β
  | [], _ => none
  | (k, v) :: rest, a => if k = a then some v else alGet rest a

/-- Dict assignment: update in place if the key is present, append otherwise. -/
def alSet {α β : Type} [DecidableEq α] : List (α × β) → α → β → List (α × β)
  | [], a, b => [(a, b)]
  | (k, v) :: rest, a, b =>
    if k = a then (k, b) :: rest else (k, v) :: alSet rest a b

/-- Dict deletion of a key (on nodup-key lists this is python `del`). -/
def alDel {α β : Type} [DecidableEq α] : List (α × β) → α → List (α × β)
  | [], _ => []
  | (k, v) :: rest, a => if k = a then alDel rest a else (k, v) :: alDel rest a

theorem alGet_alSet_self {α β : Type} [DecidableEq α]
    (l : List (α × β)) (a : α) (b : β) : alGet (alSet l a b) a = some b := by
  induction l with
  | nil => simp [alSet, alGet]
  | cons p rest ih =>
    by_cases h : p.1 = a <;> simp [alSet, alGet, h, ih]

theorem alGet_alSet_ne {α β : Type} [DecidableEq α]
    (l : List (α × β)) (a a' : α) (b : β) (h : a ≠ a') :
    alGet (alSet l a b) a' = alGet l a' := by
  induction l with
  | nil => simp [alSet, alGet, h]
  | cons p rest ih =>
    by_cases hp : p.1 = a
    · simp [alSet, alGet, hp, h, Ne.symm h]
    · by_cases hp' : p.1 = a' <;> simp [alSet, alGet, hp, hp', ih, Ne.symm h]

theorem alGet_alDel_self {α β : Type} [DecidableEq α]
    (l : List (α × β)) (a : α) : alGet (alDel l a) a = none := by
  induction l with
  | nil => simp [alDel, alGet]
  | cons p rest ih =>
    by_cases h : p.1 = a <;> simp [alDel, alGet, h, ih]

theorem alGet_alDel_ne {α β : Type} [DecidableEq α]
    (l : List (α × β)) (a a' : α) (h : a ≠ a') :
    alGet (alDel l a) a' = alGet l a' := by
  induction l with
  | nil => simp [alDel, alGet]
  | cons p rest ih =>
    by_cases hp : p.1 = a
    · subst hp; simp [alDel, alGet, h, ih]
    · by_cases hp' : p.1 = a' <;> simp [alDel, alGet, hp, hp', ih, Ne.symm h]

/-! ## The registry -/

/-- The process-wide state of `RelationalTag`: the case-sensitivity flag, the
`all_tags` dict from normalized name to that tag's `connections` dict (keyed
by the hashable target, holding the stored connection), and the
`_tagged_entities` reverse index from entity to a dict from tag (identified
by name) to the stored inverse connection. -/
structure Registry where
  is_case_sensitive : Bool
  all_tags : List (String × List (Node × Conn))
  tagged_entities : List (Ent × List (String × Conn))
deriving DecidableEq, Repr

/-- Name normalization: lowercase unless case-sensitive. -/
def normName (r : Registry) (name : String) : String :=
  if r.is_case_sensitive then name else name.toLower

/-- The empty registry with default configuration. -/
def emptyRegistry : Registry := ⟨false, [], []⟩

/-- The stored connection of tag `name` keyed by `key`, if any. -/
def tagConnAt (r : Registry) (name : String) (key : Node) : Option Conn :=
  match alGet r.all_tags name with
  | none => none
  | some conns => alGet conns key

/-- The reverse-index entry for entity `e` under tag `name`, if any. -/
def bucketAt (r : Registry) (e : Ent) (name : String) : Option Conn :=
  match alGet r.tagged_entities e with
  | none => none
  | some bucket => alGet bucket name

/-- The `RelationalTag.__init__` constructor: normalizes the name, raises a
collision error if it is taken, otherwise registers a tag with an empty
connections dict and returns its name. -/
def newTagRaw (r : Registry) (name : String) : Except PyErr (Registry × String) :=
  let name := normName r name
  if (alGet r.all_tags name).isSome then
    .error (.rtError .collision)
  else
    .ok ({ r with all_tags := r.all_tags ++ [(name, [])] }, name)

/-- `RelationalTag.new`: normalizes, tries the constructor, and on a
collision returns the existing tag when `get_if_exists`, else re-raises. -/
def rtNew (r : Registry) (name : String) (get_if_exists : Bool) :
    Except PyErr (Registry × String) :=
  let name := normName r name
  match newTagRaw r name with
  | .ok res => .ok res
  | .error e =>
    if e = .rtError .collision && get_if_exists then .ok (r, name)
    else .error e

/-- `RelationalTag.get`: normalizes, looks up, and if missing either creates
through the constructor (`new_if_missing`) or raises a missing error. -/
def rtGet (r : Registry) (name : String) (new_if_missing : Bool) :
    Except PyErr (Registry × String) :=
  let name := normName r name
  match alGet r.all_tags name with
  | some _ => .ok (r, name)
  | none =>
    if new_if_missing then newTagRaw r name
    else .error (.rtError .missing)

/-- Write connection `c` into the registered tag `name` at key `key`.  If the
name is not registered, the python code would mutate the unregistered tag
object, which leaves the registry unchanged; the model covers tags that are
registered, so the registry is returned unchanged in that case. -/
def setTagConn (r : Registry) (name : String) (key : Node) (c : Conn) : Registry :=
  match alGet r.all_tags name with
  | none => r
  | some conns =>
    { r with all_tags := alSet r.all_tags name (alSet conns key c) }

/-- The first argument of `RelationalTag.connect` and `disconnect`: either a
pre-built connection, or a node (a tag in intended use; after the connection
re-dispatch it can also be an entity). -/
inductive ConnectArg where
  | conn (c : Conn)
  | node (n : Node)
deriving DecidableEq, Repr

/-- The body of `RelationalTag.connect` once the first argument is known not
to be a connection.  Resolves a missing type to undirected for a tag target
and to-entity otherwise, validates through the connection constructor, stores
the forward connection in the source tag's dict keyed by the hashable target
(an `AttributeError` escapes when the python `tag` value is an entity, which
has no `connections` attribute), builds the inverse through the constructor,
and stores it at the target tag's dict keyed by the source, or in the
reverse-index bucket for the target entity, creating the bucket if absent. -/
def connectNode (r : Registry) (tagNode : Node) (target : Node)
    (connection_type : Option ConnType) : Except PyErr (Registry × Conn) :=
  let ctype := match connection_type with
    | some t => t
    | none => if target.isTag then ConnType.toTagUndirected else ConnType.toEnt
  let hashable_target := target
  match mkConn tagNode target ctype with
  | .error e => .error e
  | .ok c =>
    match tagNode with
    | .ent _ => .error .attributeError
    | .tag name =>
      let r1 := setTagConn r name hashable_target c
      match mkConn c.target c.source (inverse_type c.type) with
      | .error e => .error e
      | .ok inv =>
        match target with
        | .tag tname => .ok (setTagConn r1 tname (.tag name) inv, c)
        | .ent e =>
          let r2 := if (alGet r1.tagged_entities e).isSome then r1
            else { r1 with tagged_entities := r1.tagged_entities ++ [(e, [])] }
          match alGet r2.tagged_entities e with
          | none => .error .keyError
          | some bucket =>
            .ok ({ r2 with
              tagged_entities := alSet r2.tagged_entities e (alSet bucket name inv) }, c)

/-- `RelationalTag.connect`: a pre-built connection re-dispatches on its
source, target and type; otherwise the tag (or entity, after re-dispatch)
and target are connected.  A missing target is python `None`, a plain
hashable value treated as an entity. -/
def connect (r : Registry) (arg : ConnectArg) (target : Option Node)
    (connection_type : Option ConnType) : Except PyErr (Registry × Conn) :=
  match arg with
  | .conn c => connectNode r c.source c.target (some c.type)
  | .node n =>
    match target with
    | some t => connectNode r n t connection_type
    | none => connectNode r n (.ent (.str "None")) connection_type

/-- The body of `RelationalTag.disconnect` once the first argument is known
not to be a connection.  Deletes the forward entry from the source tag's
connections dict (a `KeyError` escapes if there is none), then deletes the
paired reverse entry: from the target tag's connections dict for a tag
target (a `KeyError` escapes if absent there), or from the target entity's
reverse-index bucket; a missing bucket is only logged as a warning.  The
model covers tags registered in the registry; python would mutate an
unregistered tag object, leaving the registry unchanged. -/
def disconnectNode (r : Registry) (tagNode : Node) (target : Node) :
    Except PyErr Registry :=
  match tagNode with
  | .ent _ => .error .attributeError
  | .tag name =>
    let hashable_target := target
    match alGet r.all_tags name with
    | none => .error .keyError
    | some conns =>
      if (alGet conns hashable_target).isNone then .error .keyError
      else
        let r1 := { r with all_tags := alSet r.all_tags name (alDel conns hashable_target) }
        match target with
        | .tag tname =>
          match alGet r1.all_tags tname with
          | none => .ok r1
          | some tconns =>
            if (alGet tconns (.tag name)).isNone then .error .keyError
            else .ok { r1 with
              all_tags := alSet r1.all_tags tname (alDel tconns (.tag name)) }
        | .ent e =>
          match alGet r1.tagged_entities e with
          | some bucket =>
            if (alGet bucket name).isNone then .error .keyError
            else .ok { r1 with
              tagged_entities := alSet r1.tagged_entities e (alDel bucket name) }
          | none => .ok r1

/-- `RelationalTag.disconnect`: a pre-built connection is disconnected from
its tag endpoint (swapping source and target when the source is the entity);
otherwise the given tag and target are disconnected. -/
def disconnect (r : Registry) (arg : ConnectArg) (target : Option Node) :
    Except PyErr Registry :=
  match arg with
  | .conn c =>
    if c.source.isTag then disconnectNode r c.source c.target
    else disconnectNode r c.target c.source
  | .node n =>
    match target with
    | some t => disconnectNode r n t
    | none => disconnectNode r n (.ent (.str "None"))

/-- The reference argument of `RelationalTag.delete`: a tag name string, or a
tag object (identified by its name, which is already normalized). -/
inductive TagRef where
  | byName (s : String)
  | byTag (name : String)
deriving DecidableEq, Repr

/-- The loop of `RelationalTag.delete` over a snapshot of the doomed tag's
connections: for each connection, remove the reverse reference held by the
neighbor (the other tag's connections dict, or the entity's reverse-index
bucket).  Any `KeyError` is caught by the surrounding handler, which itself
raises a `NameError` because it interpolates the unbound variable `name`. -/
def deleteRefs (name : String) : Registry → List (Node × Conn) →
    Except PyErr Registry
  | r, [] => .ok r
  | r, (_, c) :: rest =>
    match c.target with
    | .tag bname =>
      match alGet r.all_tags bname with
      | none => deleteRefs name r rest
      | some bconns =>
        if (alGet bconns (.tag name)).isNone then .error .nameError
        else deleteRefs name
          { r with all_tags := alSet r.all_tags bname (alDel bconns (.tag name)) } rest
    | .ent e =>
      match alGet r.tagged_entities e with
      | none => .error .nameError
      | some bucket =>
        if (alGet bucket name).isNone then .error .nameError
        else deleteRefs name
          { r with tagged_entities := alSet r.tagged_entities e (alDel bucket name) } rest

/-- `RelationalTag.delete`: resolves a name argument through `all_tags`
(normalizing first); a missing name raises a `KeyError` that the handler
catches, but the handler's warning call interpolates the unbound variable
`name` and so a `NameError` escapes instead of a logged warning.  For a
found tag, every reverse reference held by a neighbor is removed, then the
tag is removed from `all_tags`.  The model covers tag objects registered in
the registry. -/
def delete (r : Registry) (t : TagRef) : Except PyErr Registry :=
  let resolved : Except PyErr (String × List (Node × Conn)) :=
    match t with
    | .byName s =>
      let n := normName r s
      match alGet r.all_tags n with
      | none => .error .nameError
      | some conns => .ok (n, conns)
    | .byTag n =>
      match alGet r.all_tags n with
      | none => .error .nameError
      | some conns => .ok (n, conns)
  match resolved with
  | .error e => .error e
  | .ok (n, conns) =>
    match deleteRefs n r conns with
    | .error e => .error e
    | .ok r1 => .ok { r1 with all_tags := alDel r1.all_tags n }

/-- `RelationalTag.clear`: drops all tags and all reverse-index buckets and
returns the number of tags removed. -/
def clear (r : Registry) : Registry × Nat :=
  ({ r with all_tags := [], tagged_entities := [] }, r.all_tags.length)

/-- `RelationalTag.known`: a `RelationalTag` instance is known when its name
is a key of `all_tags`; any other value is treated as an entity and is known
when its hashable identity is a key of the reverse index.  In particular a
tag name passed as a string takes the entity branch. -/
def known (r : Registry) (node : Node) : Bool :=
  match node with
  | .tag name => (alGet r.all_tags name).isSome
  | .ent e => (alGet r.tagged_entities e).isSome

/-- The loop of `RelationalTag.disconnect_entity` over a snapshot of the
entity's bucket: disconnect each stored inverse connection through
`disconnect`. -/
def disconnectEntityRefs : Registry → List (String × Conn) → Except PyErr Registry
  | r, [] => .ok r
  | r, (_, c) :: rest =>
    match disconnect r (.conn c) none with
    | .error e => .error e
    | .ok r1 => disconnectEntityRefs r1 rest

/-- `RelationalTag.disconnect_entity`: disconnects every connection between
the entity and any tag (iterating a snapshot of its bucket), then drops the
entity's bucket; an unknown entity is a logged no-op. -/
def disconnect_entity (r : Registry) (e : Ent) : Except PyErr Registry :=
  match alGet r.tagged_entities e with
  | none => .ok r
  | some bucket =>
    match disconnectEntityRefs r bucket with
    | .error err => .error err
    | .ok r1 =>
      if (alGet r1.tagged_entities e).isSome then
        .ok { r1 with tagged_entities := alDel r1.tagged_entities e }
      else .error .keyError

/-- The adjacency list read by `_graph_path`: the keys of a tag's connections
dict, or for an entity the tags of its reverse-index bucket. -/
def adjacency (r : Registry) (a : Node) : List Node :=
  match a with
  | .tag name => ((alGet r.all_tags name).getD []).map (fun p => p.1)
  | .ent e => ((alGet r.tagged_entities e).getD []).map (fun p => Node.tag p.1)

mutual

/-- `RelationalTag._graph_path`: depth-first search threading the shared
visited set (a python set mutated across sibling calls, modelled by passing
the updated set along).  If the target is adjacent, the two-node path is
returned at once; otherwise the search recurses into each unvisited
neighbor.  The python recursion is bounded by the visited set; the model
bounds it with a fuel parameter, which callers size to the graph so that
fuel never runs out on the branches the claims exercise. -/
def gpathGo (r : Registry) : Nat → Node → Node → List Node →
    Option (List Node) × List Node
  | 0, _, _, visits => (none, visits)
  | Nat.succ fuel, a, b, visits =>
    let visits := if a ∈ visits then visits else visits ++ [a]
    let connections := adjacency r a
    if b ∈ connections then (some [a, b], visits)
    else
      let nexts := connections.filter (fun n => !visits.contains n)
      if nexts.isEmpty then (none, visits)
      else
        match gpathFold r fuel b nexts visits with
        | (some p, v) => (some (a :: p), v)
        | (none, v) => (none, v)
termination_by fuel _ _ _ => (fuel, 0)

/-- The loop of `_graph_path` over the unvisited neighbors, returning the
first path found and threading the shared visited set. -/
def gpathFold (r : Registry) : Nat → Node → List Node → List Node →
    Option (List Node) × List Node
  | _, _, [], visits => (none, visits)
  | fuel, b, n :: rest, visits =>
    match gpathGo r fuel n b visits with
    | (some p, v) => (some p, v)
    | (none, v) => gpathFold r fuel b rest v
termination_by fuel _ l _ => (fuel, l.length + 1)

end

/-- `RelationalTag.graph_path`: when the endpoints coincide or the second is
omitted, the path is the single node when it is known and empty otherwise;
when both endpoints are known the depth-first search runs, and an unknown
endpoint or a failed search gives the empty path. -/
def graph_path (r : Registry) (a : Node) (b : Option Node) : List Node :=
  if b = some a ∨ b = none then
    if known r a then [a] else []
  else
    match b with
    | none => []
    | some bb =>
      if known r a && known r bb then
        match (gpathGo r (2 * (r.all_tags.length + r.tagged_entities.length) + 2)
            a bb []).1 with
        | none => []
        | some p => p
      else []

/-- `RelationalTag.graph_distance`: the length of the graph path minus one
(python integer arithmetic, so the empty path gives -1). -/
def graph_distance (r : Registry) (a : Node) (b : Option Node) : Int :=
  ((graph_path r a b).length : Int) - 1

/-! ## Sample registry states, built through the registry operations -/

/-- `RelationalTag.config`: sets the case-sensitivity flag. -/
def config (r : Registry) (is_case_sensitive : Bool) : Registry :=
  { r with is_case_sensitive := is_case_sensitive }

/-- A registry configured case-sensitive before any tag is created, so that
name normalization is the identity and sample states evaluate literally. -/
def emptyRegistryCS : Registry := config emptyRegistry true

/-- A registry holding the single tag `x`. -/
def regX : Registry :=
  match rtNew emptyRegistryCS "x" true with
  | .ok (r, _) => r
  | .error _ => emptyRegistryCS

/-- A registry holding the two unconnected tags `x` and `y`. -/
def regXY : Registry :=
  match rtNew regX "y" true with
  | .ok (r, _) => r
  | .error _ => regX

/-! ## C7: graph distance of a node to itself -/

/-- C7 counterexample: for a node that is not known to the graph (here the
tag `x` against the empty registry), `graph_distance(x, x)` is -1, not 0,
because `graph_path` returns the empty path for an unknown node. -/
theorem graph_distance_self_unknown :
    graph_distance emptyRegistry (.tag "x") (some (.tag "x")) = -1 ∧
    known emptyRegistry (.tag "x") = false := by
  constructor
  · rfl
  · rfl

/-- C7 amended: `graph_distance(x, x)` is 0 when `x` is known to the graph
and -1 otherwise, since `graph_path` returns the one-node path only for a
known node and the empty path otherwise. -/
theorem graph_distance_self (r : Registry) (x : Node) :
    graph_distance r x (some x) = if known r x then 0 else -1 := by
  unfold graph_distance graph_path
  by_cases h : known r x <;> simp [h]

/-! ## C4: known -/

/-- C4 counterexample: in a registry whose only tag is `x`, passing the
string `x` (a live tag name, but not a `RelationalTag` instance) to `known`
takes the entity branch and returns false. -/
theorem known_string_name_false :
    known regX (.ent (.str "x")) = false ∧
    (alGet regX.all_tags "x").isSome = true := by
  constructor
  · rfl
  · rfl

/-- C4 amended: `known` returns true exactly when the node is a
`RelationalTag` instance whose name is a key of `all_tags`, or any other
value whose hashable identity is a key of the reverse entity index; a tag
name passed as a bare string is treated as an entity, so it reports true
only when that string itself is a tagged entity. -/
theorem known_spec (r : Registry) (node : Node) :
    known r node = true ↔
      ((∃ n, node = Node.tag n ∧ (alGet r.all_tags n).isSome = true) ∨
       (∃ e, node = Node.ent e ∧ (alGet r.tagged_entities e).isSome = true)) := by
  cases node with
  | tag n => simp [known]
  | ent e => simp [known]

/-! ## C6: delete of an unknown tag name -/

/-- C6: deleting a tag name that is not live does not warn and no-op as the
spec intends: the `KeyError` from the `all_tags` lookup is caught, but the
handler's warning message interpolates the unbound variable `name`, so a
`NameError` escapes to the caller (evaluated here on the registry whose only
tag is `x`). -/
theorem delete_missing_name_raises :
    delete regX (.byName "zzz") = .error .nameError ∧
    (alGet regX.all_tags (normName regX "zzz")).isSome = false := by
  constructor
  · rfl
  · rfl

/-! ## C5: disconnect of an absent pair -/

/-- C5 counterexample: with tags `x` and `y` live but not connected,
`disconnect(x, y)` raises an uncaught `KeyError` from
`del tag.connections[hashable_target]` rather than warning and no-opping. -/
theorem disconnect_absent_pair_keyerror :
    disconnect regXY (.node (.tag "x")) (some (.tag "y")) = .error .keyError := by
  rfl

/-- C5 amended: when the source tag holds no stored connection to the
target, `disconnect` raises `KeyError`; the tolerated warning no-op is the
narrower case in which the forward entry to an entity exists but the
entity's whole reverse-index bucket is absent, where only the forward entry
is removed and no error is raised. -/
theorem disconnect_absent_cases (r : Registry) (name : String)
    (conns : List (Node × Conn)) (hconns : alGet r.all_tags name = some conns) :
    (∀ target : Node, alGet conns target = none →
      disconnect r (.node (.tag name)) (some target) = .error .keyError) ∧
    (∀ (e : Ent) (c : Conn), alGet conns (.ent e) = some c →
      alGet r.tagged_entities e = none →
      disconnect r (.node (.tag name)) (some (.ent e)) =
        .ok { r with all_tags := alSet r.all_tags name (alDel conns (.ent e)) }) := by
  constructor
  · intro target htarget
    simp [disconnect, disconnectNode, hconns, htarget]
  · intro e c hc hbucket
    simp [disconnect, disconnectNode, hconns, hc, hbucket]

/-- A registry in which tag `x` holds a forward connection to entity `e`
whose reverse-index bucket is absent: the state addressed by the warning
branch of `disconnect`. -/
def regForwardOnly : Registry :=
  ⟨true, [("x", [(.ent (.str "e"), ⟨.tag "x", .ent (.str "e"), .toEnt⟩)])], []⟩

/-- Witness for the amended C5 theorem at a concrete registry. -/
theorem disconnect_absent_cases_witness :
    disconnect regForwardOnly (.node (.tag "x")) (some (.tag "y")) = .error .keyError ∧
    disconnect regForwardOnly (.node (.tag "x")) (some (.ent (.str "e"))) =
      .ok { regForwardOnly with
        all_tags := alSet regForwardOnly.all_tags "x"
          (alDel [(.ent (.str "e"), ⟨.tag "x", .ent (.str "e"), .toEnt⟩)]
            (.ent (.str "e"))) } := by
  have h := disconnect_absent_cases regForwardOnly "x"
    [(.ent (.str "e"), ⟨.tag "x", .ent (.str "e"), .toEnt⟩)] rfl
  exact ⟨h.1 (.tag "y") rfl, h.2 (.str "e") ⟨.tag "x", .ent (.str "e"), .toEnt⟩ rfl rfl⟩

/-! ## C9: connect with a pre-built connection -/

/-- C9 counterexample: the valid entity-to-tag connection from entity `e` to
tag `x` (exactly the inverse shape of a tag-entity connection) is accepted
by the connection constructor, but passing it to `connect` re-dispatches
with the entity in the tag position, and the attempt to assign into its
`connections` attribute raises an uncaught `AttributeError` instead of
registering the pair. -/
theorem connect_entity_source_attribute_error :
    mkConn (.ent (.str "e")) (.tag "x") .entToTag =
      .ok ⟨.ent (.str "e"), .tag "x", .entToTag⟩ ∧
    connect regX (.conn ⟨.ent (.str "e"), .tag "x", .entToTag⟩) none none =
      .error .attributeError := by
  exact ⟨rfl, rfl⟩

/-! ## Helper lemmas about registry updates -/

theorem alGet_append_single_self {α β : Type} [DecidableEq α]
    (l : List (α × β)) (a : α) (b : β) (h : alGet l a = none) :
    alGet (l ++ [(a, b)]) a = some b := by
  induction l with
  | nil => simp [alGet]
  | cons p rest ih =>
    by_cases hp : p.1 = a
    · simp [alGet, hp] at h
    · simp [alGet, hp] at h ⊢
      exact ih h

theorem alGet_append_single_ne {α β : Type} [DecidableEq α]
    (l : List (α × β)) (a a' : α) (b : β) (h : a ≠ a') :
    alGet (l ++ [(a, b)]) a' = alGet l a' := by
  induction l with
  | nil => simp [alGet, h]
  | cons p rest ih =>
    by_cases hp : p.1 = a' <;> simp [alGet, hp, ih]

theorem setTagConn_tagged_entities (r : Registry) (n : String) (k : Node) (c : Conn) :
    (setTagConn r n k c).tagged_entities = r.tagged_entities := by
  unfold setTagConn
  cases alGet r.all_tags n <;> rfl

theorem setTagConn_case (r : Registry) (n : String) (k : Node) (c : Conn) :
    (setTagConn r n k c).is_case_sensitive = r.is_case_sensitive := by
  unfold setTagConn
  cases alGet r.all_tags n <;> rfl

theorem alGet_setTagConn_ne (r : Registry) (n m : String) (k : Node) (c : Conn)
    (h : n ≠ m) :
    alGet (setTagConn r n k c).all_tags m = alGet r.all_tags m := by
  unfold setTagConn
  cases halGet : alGet r.all_tags n with
  | none => rfl
  | some conns => simp [alGet_alSet_ne _ _ _ _ h]

theorem alGet_setTagConn_self (r : Registry) (n : String) (k : Node) (c : Conn)
    (conns : List (Node × Conn)) (h : alGet r.all_tags n = some conns) :
    alGet (setTagConn r n k c).all_tags n = some (alSet conns k c) := by
  unfold setTagConn
  simp [h, alGet_alSet_self]

theorem isSome_alGet_setTagConn (r : Registry) (n m : String) (k : Node) (c : Conn) :
    (alGet (setTagConn r n k c).all_tags m).isSome = (alGet r.all_tags m).isSome := by
  by_cases hnm : n = m
  · subst hnm
    cases halGet : alGet r.all_tags n with
    | none => unfold setTagConn; simp [halGet]
    | some conns => simp [alGet_setTagConn_self r n k c conns halGet, halGet]
  · rw [alGet_setTagConn_ne r n m k c hnm]

theorem tagConnAt_setTagConn_self (r : Registry) (n : String) (k : Node) (c : Conn)
    (h : (alGet r.all_tags n).isSome = true) :
    tagConnAt (setTagConn r n k c) n k = some c := by
  obtain ⟨conns, hconns⟩ := Option.isSome_iff_exists.mp h
  unfold tagConnAt
  simp [alGet_setTagConn_self r n k c conns hconns, alGet_alSet_self]

theorem tagConnAt_setTagConn_ne_name (r : Registry) (n m : String) (k k' : Node)
    (c : Conn) (h : n ≠ m) :
    tagConnAt (setTagConn r n k c) m k' = tagConnAt r m k' := by
  unfold tagConnAt
  rw [alGet_setTagConn_ne r n m k c h]

theorem tagConnAt_setTagConn_ne_key (r : Registry) (n : String) (k k' : Node)
    (c : Conn) (h : k ≠ k') :
    tagConnAt (setTagConn r n k c) n k' = tagConnAt r n k' := by
  unfold tagConnAt
  cases halGet : alGet r.all_tags n with
  | none => unfold setTagConn; simp [halGet]
  | some conns =>
    simp [alGet_setTagConn_self r n k c conns halGet, halGet,
      alGet_alSet_ne _ _ _ _ h]

theorem bucketAt_setTagConn (r : Registry) (n : String) (k : Node) (c : Conn)
    (e : Ent) (m : String) :
    bucketAt (setTagConn r n k c) e m = bucketAt r e m := by
  unfold bucketAt
  rw [setTagConn_tagged_entities]

theorem mkConn_tag_tag (a b : String) (t : ConnType) (ht : t.isTagTag = true) :
    mkConn (.tag a) (.tag b) t = .ok ⟨.tag a, .tag b, t⟩ := by
  cases t <;> simp_all [mkConn, Node.isTag, ConnType.isTagTag, ConnType.isTagEnt]

theorem inverse_type_tagTag (t : ConnType) (ht : t.isTagTag = true) :
    (inverse_type t).isTagTag = true := by
  cases t <;> simp_all [inverse_type, ConnType.isTagTag]

theorem inverse_type_involution (t : ConnType) :
    inverse_type (inverse_type t) = t := by
  cases t <;> rfl

theorem mkConn_tag_ent_ok (a : String) (e : Ent) (t : ConnType) (c : Conn)
    (h : mkConn (.tag a) (.ent e) t = .ok c) :
    t = .toEnt ∧ c = ⟨.tag a, .ent e, .toEnt⟩ := by
  cases t <;> simp_all [mkConn, Node.isTag, ConnType.isTagTag, ConnType.isTagEnt]

/-- Unfolding of `connect` on a live tag source and tag target with a
tag-tag type: the forward connection is stored at the source keyed by the
target, then the inverse is stored at the target keyed by the source. -/
theorem connectNode_tag_tag (r : Registry) (a b : String) (t : ConnType)
    (ht : t.isTagTag = true) :
    connectNode r (.tag a) (.tag b) (some t) =
      .ok (setTagConn (setTagConn r a (.tag b) ⟨.tag a, .tag b, t⟩) b (.tag a)
        ⟨.tag b, .tag a, inverse_type t⟩, ⟨.tag a, .tag b, t⟩) := by
  simp [connectNode, mkConn_tag_tag a b t ht,
    mkConn_tag_tag b a (inverse_type t) (inverse_type_tagTag t ht)]

/-! ## C1: symmetry of connect -/

/-- C1 counterexample: connecting the live tag `x` to itself with the
directed parent type succeeds, but the inverse write lands on the same
dict key, so `x.connections[x]` afterwards holds the child-typed inverse
rather than a connection of the requested type. -/
theorem connect_self_parent_overwritten :
    (connect regX (.node (.tag "x")) (some (.tag "x")) (some .toTagParent)).map
        (fun p => tagConnAt p.1 "x" (.tag "x")) =
      .ok (some ⟨.tag "x", .tag "x", .toTagChild⟩) ∧
    ConnType.toTagChild ≠ ConnType.toTagParent := by
  exact ⟨rfl, by decide⟩


/-- Unfolding of `connect` on a tag source and entity target whose
reverse-index bucket already exists: the forward connection is stored at the
source, and the inverse is written into the existing bucket. -/
theorem connectNode_tag_ent_some (r : Registry) (a : String) (e : Ent)
    (bucket : List (String × Conn)) (hbk : alGet r.tagged_entities e = some bucket) :
    connectNode r (.tag a) (.ent e) (some .toEnt) =
      .ok ({ setTagConn r a (.ent e) ⟨.tag a, .ent e, .toEnt⟩ with
          tagged_entities := alSet r.tagged_entities e
            (alSet bucket a ⟨.ent e, .tag a, .entToTag⟩) },
        ⟨.tag a, .ent e, .toEnt⟩) := by
  simp [connectNode, mkConn, Node.isTag, ConnType.isTagTag, ConnType.isTagEnt,
    inverse_type, setTagConn_tagged_entities, hbk]

/-- Unfolding of `connect` on a tag source and entity target with no
reverse-index bucket: the forward connection is stored at the source, an
empty bucket is appended for the entity, and the inverse becomes its sole
entry. -/
theorem connectNode_tag_ent_none (r : Registry) (a : String) (e : Ent)
    (hbk : alGet r.tagged_entities e = none) :
    connectNode r (.tag a) (.ent e) (some .toEnt) =
      .ok ({ setTagConn r a (.ent e) ⟨.tag a, .ent e, .toEnt⟩ with
          tagged_entities := alSet (r.tagged_entities ++ [(e, [])]) e
            [(a, ⟨.ent e, .tag a, .entToTag⟩)] },
        ⟨.tag a, .ent e, .toEnt⟩) := by
  simp [connectNode, mkConn, Node.isTag, ConnType.isTagTag, ConnType.isTagEnt,
    inverse_type, setTagConn_tagged_entities, hbk,
    alGet_append_single_self _ _ _ hbk, alSet]

/-- Unfolding of `connect` on a tag source and entity target with any type
other than to-entity: the connection constructor rejects it. -/
theorem connectNode_tag_ent_invalid (r : Registry) (a : String) (e : Ent)
    (t : ConnType) (ht : t ≠ .toEnt) :
    connectNode r (.tag a) (.ent e) (some t) = .error (.rtError .wrongType) := by
  cases t <;> simp_all [connectNode, mkConn, Node.isTag, ConnType.isTagTag,
    ConnType.isTagEnt]

/-- Reading a tag's connections dict ignores the reverse entity index. -/
theorem tagConnAt_set_tagged (r : Registry)
    (z : List (Ent × List (String × Conn))) (n : String) (k : Node) :
    tagConnAt { r with tagged_entities := z } n k = tagConnAt r n k := rfl

/-- C1 amended: for distinct live tags `a` and `b` and a tag-tag type, after
`connect(a, b, t)` succeeds, `a`'s connections dict keyed by `b` holds the
forward connection of type `t` and `b`'s dict keyed by `a` holds the inverse
connection of the inverse type (when `a = b` the two writes share one key
and the inverse overwrites the forward).  For an entity target `e`, after a
successful connect the forward connection sits at `a` keyed by `e`, and the
reverse-index bucket for `e` exists (created if it was absent) and maps `a`
to the inverse connection. -/
theorem connect_symmetry (r : Registry) (a b : String) (e : Ent) (t : ConnType) :
    (t.isTagTag = true → a ≠ b →
      (alGet r.all_tags a).isSome = true → (alGet r.all_tags b).isSome = true →
      ∀ r' c, connect r (.node (.tag a)) (some (.tag b)) (some t) = .ok (r', c) →
        c = ⟨.tag a, .tag b, t⟩ ∧
        tagConnAt r' a (.tag b) = some ⟨.tag a, .tag b, t⟩ ∧
        tagConnAt r' b (.tag a) = some ⟨.tag b, .tag a, inverse_type t⟩) ∧
    ((alGet r.all_tags a).isSome = true →
      ∀ t2 r' c, connect r (.node (.tag a)) (some (.ent e)) (some t2) = .ok (r', c) →
        c = ⟨.tag a, .ent e, .toEnt⟩ ∧
        tagConnAt r' a (.ent e) = some ⟨.tag a, .ent e, .toEnt⟩ ∧
        (alGet r'.tagged_entities e).isSome = true ∧
        bucketAt r' e a = some ⟨.ent e, .tag a, .entToTag⟩) := by
  constructor
  · intro ht hab ha hb r' c hconn
    rw [show connect r (.node (.tag a)) (some (.tag b)) (some t) =
        connectNode r (.tag a) (.tag b) (some t) from rfl,
      connectNode_tag_tag r a b t ht] at hconn
    obtain ⟨hr', hc⟩ : setTagConn (setTagConn r a (.tag b) ⟨.tag a, .tag b, t⟩) b
        (.tag a) ⟨.tag b, .tag a, inverse_type t⟩ = r' ∧
          (⟨.tag a, .tag b, t⟩ : Conn) = c := by
      injection hconn with h1
      exact ⟨congrArg Prod.fst h1, congrArg Prod.snd h1⟩
    subst hr'; subst hc
    refine ⟨rfl, ?_, ?_⟩
    · rw [tagConnAt_setTagConn_ne_name _ b a _ _ _ (Ne.symm hab)]
      exact tagConnAt_setTagConn_self r a (.tag b) _ ha
    · refine tagConnAt_setTagConn_self _ b (.tag a) _ ?_
      rw [isSome_alGet_setTagConn]
      exact hb
  · intro ha t2 r' c hconn
    rw [show connect r (.node (.tag a)) (some (.ent e)) (some t2) =
        connectNode r (.tag a) (.ent e) (some t2) from rfl] at hconn
    by_cases ht2 : t2 = ConnType.toEnt
    · subst ht2
      cases hbk : alGet r.tagged_entities e with
      | some bucket =>
        rw [connectNode_tag_ent_some r a e bucket hbk] at hconn
        obtain ⟨hr', hc⟩ : ({ setTagConn r a (.ent e) ⟨.tag a, .ent e, .toEnt⟩ with
            tagged_entities := alSet r.tagged_entities e
              (alSet bucket a ⟨.ent e, .tag a, .entToTag⟩) } : Registry) = r' ∧
              (⟨.tag a, .ent e, .toEnt⟩ : Conn) = c := by
          injection hconn with h1
          exact ⟨congrArg Prod.fst h1, congrArg Prod.snd h1⟩
        subst hr'; subst hc
        refine ⟨rfl, ?_, ?_, ?_⟩
        · rw [tagConnAt_set_tagged]
          exact tagConnAt_setTagConn_self r a (.ent e) _ ha
        · simp [alGet_alSet_self]
        · unfold bucketAt
          simp [alGet_alSet_self]
      | none =>
        rw [connectNode_tag_ent_none r a e hbk] at hconn
        obtain ⟨hr', hc⟩ : ({ setTagConn r a (.ent e) ⟨.tag a, .ent e, .toEnt⟩ with
            tagged_entities := alSet (r.tagged_entities ++ [(e, [])]) e
              [(a, ⟨.ent e, .tag a, .entToTag⟩)] } : Registry) = r' ∧
              (⟨.tag a, .ent e, .toEnt⟩ : Conn) = c := by
          injection hconn with h1
          exact ⟨congrArg Prod.fst h1, congrArg Prod.snd h1⟩
        subst hr'; subst hc
        refine ⟨rfl, ?_, ?_, ?_⟩
        · rw [tagConnAt_set_tagged]
          exact tagConnAt_setTagConn_self r a (.ent e) _ ha
        · simp [alGet_alSet_self]
        · unfold bucketAt
          simp [alGet_alSet_self, alGet]
    · rw [connectNode_tag_ent_invalid r a e t2 ht2] at hconn
      exact absurd hconn (by simp)

/-- The registry after connecting tag `x` to tag `y` with the parent type in
the two-tag registry. -/
def regP : Registry :=
  match connect regXY (.node (.tag "x")) (some (.tag "y")) (some .toTagParent) with
  | .ok p => p.1
  | .error _ => regXY

/-- The connection returned by that connect call. -/
def connP : Conn :=
  match connect regXY (.node (.tag "x")) (some (.tag "y")) (some .toTagParent) with
  | .ok p => p.2
  | .error _ => ⟨.tag "x", .tag "y", .toTagParent⟩

/-- The registry after connecting tag `x` to the entity `e`. -/
def regPE : Registry :=
  match connect regXY (.node (.tag "x")) (some (.ent (.str "e"))) (some .toEnt) with
  | .ok p => p.1
  | .error _ => regXY

/-- The connection returned by that entity connect call. -/
def connPE : Conn :=
  match connect regXY (.node (.tag "x")) (some (.ent (.str "e"))) (some .toEnt) with
  | .ok p => p.2
  | .error _ => ⟨.tag "x", .ent (.str "e"), .toEnt⟩

/-- Witness for the amended C1 theorem at concrete registries. -/
theorem connect_symmetry_witness :
    tagConnAt regP "x" (.tag "y") = some ⟨.tag "x", .tag "y", .toTagParent⟩ ∧
    tagConnAt regP "y" (.tag "x") = some ⟨.tag "y", .tag "x", .toTagChild⟩ ∧
    bucketAt regPE (.str "e") "x" = some ⟨.ent (.str "e"), .tag "x", .entToTag⟩ := by
  have h := connect_symmetry regXY "x" "y" (.str "e") .toTagParent
  have h1 := h.1 rfl (by decide) rfl rfl regP connP rfl
  have h2 := h.2 rfl .toEnt regPE connPE rfl
  exact ⟨h1.2.1, h1.2.2, h2.2.2.2⟩

/-- C9 amended: `connect` applied to a pre-built connection re-dispatches on
the connection's source, target and type.  When the source is a live tag the
re-dispatch succeeds and registers the forward connection at the source and
the inverse at the target's adjacency; when the source is an entity (as in
an entity-to-tag connection) the re-dispatch places the entity in the tag
position and fails with an `AttributeError` instead of registering the pair
(see the counterexample). -/
theorem connect_conn_redispatch (r : Registry) (c : Conn) (a : String)
    (hsrc : c.source = .tag a) (ha : (alGet r.all_tags a).isSome = true)
    (hne : c.target ≠ c.source) :
    connect r (.conn c) none none = connectNode r c.source c.target (some c.type) ∧
    (∀ b, c.target = .tag b → c.type.isTagTag = true →
        (alGet r.all_tags b).isSome = true →
      (connect r (.conn c) none none).isOk = true ∧
      ∀ r' c2, connect r (.conn c) none none = .ok (r', c2) →
        c2 = c ∧ tagConnAt r' a (.tag b) = some c ∧
        tagConnAt r' b (.tag a) = some ⟨.tag b, .tag a, inverse_type c.type⟩) ∧
    (∀ e, c.target = .ent e → c.type = .toEnt →
      (connect r (.conn c) none none).isOk = true ∧
      ∀ r' c2, connect r (.conn c) none none = .ok (r', c2) →
        c2 = c ∧ tagConnAt r' a (.ent e) = some c ∧
        bucketAt r' e a = some ⟨.ent e, .tag a, .entToTag⟩) := by
  obtain ⟨cs, ct, cty⟩ := c
  simp only [Conn.mk.injEq] at hsrc ⊢
  subst hsrc
  refine ⟨rfl, ?_, ?_⟩
  · intro b htgt htt hb
    have htgt2 : ct = Node.tag b := htgt
    subst htgt2
    have hab : a ≠ b := by
      intro h
      exact hne (by simp [h])
    have heq : connect r (.conn ⟨.tag a, .tag b, cty⟩) none none =
        .ok (setTagConn (setTagConn r a (.tag b) ⟨.tag a, .tag b, cty⟩) b (.tag a)
          ⟨.tag b, .tag a, inverse_type cty⟩, ⟨.tag a, .tag b, cty⟩) := by
      rw [show connect r (.conn ⟨.tag a, .tag b, cty⟩) none none =
          connectNode r (.tag a) (.tag b) (some cty) from rfl]
      exact connectNode_tag_tag r a b cty htt
    refine ⟨by rw [heq]; rfl, ?_⟩
    intro r' c2 hok
    rw [heq] at hok
    obtain ⟨hr', hc⟩ : setTagConn (setTagConn r a (.tag b) ⟨.tag a, .tag b, cty⟩) b
        (.tag a) ⟨.tag b, .tag a, inverse_type cty⟩ = r' ∧
          (⟨.tag a, .tag b, cty⟩ : Conn) = c2 := by
      injection hok with h1
      exact ⟨congrArg Prod.fst h1, congrArg Prod.snd h1⟩
    subst hr'; subst hc
    refine ⟨rfl, ?_, ?_⟩
    · rw [tagConnAt_setTagConn_ne_name _ b a _ _ _ (Ne.symm hab)]
      exact tagConnAt_setTagConn_self r a (.tag b) _ ha
    · refine tagConnAt_setTagConn_self _ b (.tag a) _ ?_
      rw [isSome_alGet_setTagConn]
      exact hb
  · intro e htgt hty
    have htgt2 : ct = Node.ent e := htgt
    have hty2 : cty = ConnType.toEnt := hty
    subst htgt2; subst hty2
    cases hbk : alGet r.tagged_entities e with
    | some bucket =>
      have heq : connect r (.conn ⟨.tag a, .ent e, .toEnt⟩) none none =
          .ok ({ setTagConn r a (.ent e) ⟨.tag a, .ent e, .toEnt⟩ with
              tagged_entities := alSet r.tagged_entities e
                (alSet bucket a ⟨.ent e, .tag a, .entToTag⟩) },
            ⟨.tag a, .ent e, .toEnt⟩) := by
        rw [show connect r (.conn ⟨.tag a, .ent e, .toEnt⟩) none none =
            connectNode r (.tag a) (.ent e) (some .toEnt) from rfl]
        exact connectNode_tag_ent_some r a e bucket hbk
      refine ⟨by rw [heq]; rfl, ?_⟩
      intro r' c2 hok
      rw [heq] at hok
      obtain ⟨hr', hc⟩ : ({ setTagConn r a (.ent e) ⟨.tag a, .ent e, .toEnt⟩ with
          tagged_entities := alSet r.tagged_entities e
            (alSet bucket a ⟨.ent e, .tag a, .entToTag⟩) } : Registry) = r' ∧
            (⟨.tag a, .ent e, .toEnt⟩ : Conn) = c2 := by
        injection hok with h1
        exact ⟨congrArg Prod.fst h1, congrArg Prod.snd h1⟩
      subst hr'; subst hc
      refine ⟨rfl, ?_, ?_⟩
      · rw [tagConnAt_set_tagged]
        exact tagConnAt_setTagConn_self r a (.ent e) _ ha
      · unfold bucketAt
        simp [alGet_alSet_self]
    | none =>
      have heq : connect r (.conn ⟨.tag a, .ent e, .toEnt⟩) none none =
          .ok ({ setTagConn r a (.ent e) ⟨.tag a, .ent e, .toEnt⟩ with
              tagged_entities := alSet (r.tagged_entities ++ [(e, [])]) e
                [(a, ⟨.ent e, .tag a, .entToTag⟩)] },
            ⟨.tag a, .ent e, .toEnt⟩) := by
        rw [show connect r (.conn ⟨.tag a, .ent e, .toEnt⟩) none none =
            connectNode r (.tag a) (.ent e) (some .toEnt) from rfl]
        exact connectNode_tag_ent_none r a e hbk
      refine ⟨by rw [heq]; rfl, ?_⟩
      intro r' c2 hok
      rw [heq] at hok
      obtain ⟨hr', hc⟩ : ({ setTagConn r a (.ent e) ⟨.tag a, .ent e, .toEnt⟩ with
          tagged_entities := alSet (r.tagged_entities ++ [(e, [])]) e
            [(a, ⟨.ent e, .tag a, .entToTag⟩)] } : Registry) = r' ∧
            (⟨.tag a, .ent e, .toEnt⟩ : Conn) = c2 := by
        injection hok with h1
        exact ⟨congrArg Prod.fst h1, congrArg Prod.snd h1⟩
      subst hr'; subst hc
      refine ⟨rfl, ?_, ?_⟩
      · rw [tagConnAt_set_tagged]
        exact tagConnAt_setTagConn_self r a (.ent e) _ ha
      · unfold bucketAt
        simp [alGet_alSet_self, alGet]

/-- Witness for the amended C9 theorem: re-dispatch of a parent connection
from `x` to `y` and of a to-entity connection from `x` to entity `e`. -/
theorem connect_conn_redispatch_witness :
    connect regXY (.conn ⟨.tag "x", .tag "y", .toTagParent⟩) none none =
      connectNode regXY (.tag "x") (.tag "y") (some .toTagParent) ∧
    (connect regXY (.conn ⟨.tag "x", .tag "y", .toTagParent⟩) none none).isOk = true ∧
    tagConnAt regP "x" (.tag "y") = some ⟨.tag "x", .tag "y", .toTagParent⟩ ∧
    (connect regXY (.conn ⟨.tag "x", .ent (.str "e"), .toEnt⟩) none none).isOk = true ∧
    bucketAt regPE (.str "e") "x" = some ⟨.ent (.str "e"), .tag "x", .entToTag⟩ := by
  have h := connect_conn_redispatch regXY ⟨.tag "x", .tag "y", .toTagParent⟩ "x"
    rfl rfl (by decide)
  have h2 := connect_conn_redispatch regXY ⟨.tag "x", .ent (.str "e"), .toEnt⟩ "x"
    rfl rfl (by decide)
  have ht := h.2.1 "y" rfl rfl rfl
  have he := h2.2.2 (.str "e") rfl rfl
  exact ⟨h.1, ht.1, (ht.2 regP connP rfl).2.1, he.1,
    (he.2 regPE connPE rfl).2.2⟩

theorem isSome_alGet_alSet_of {α β : Type} [DecidableEq α]
    (l : List (α × β)) (a a' : α) (b : β) (h : (alGet l a').isSome = true) :
    (alGet (alSet l a b) a').isSome = true := by
  by_cases hp : a = a'
  · subst hp
    simp [alGet_alSet_self]
  · rw [alGet_alSet_ne _ _ _ _ hp]
    exact h

/-- The reverse-reference loop of `delete` never removes a key from the
reverse entity index: it only shrinks buckets. -/
theorem deleteRefs_tagged_isSome (name : String) (todo : List (Node × Conn)) :
    ∀ r r' (e : Ent), deleteRefs name r todo = .ok r' →
      (alGet r.tagged_entities e).isSome = true →
      (alGet r'.tagged_entities e).isSome = true := by
  induction todo with
  | nil =>
    intro r r' e h hsome
    unfold deleteRefs at h
    injection h with h1
    subst h1
    exact hsome
  | cons p rest ih =>
    intro r r' e h hsome
    unfold deleteRefs at h
    split at h
    · split at h
      · exact ih _ _ _ h hsome
      · split at h
        · exact absurd h (by simp)
        · exact ih _ _ _ h hsome
    · split at h
      · exact absurd h (by simp)
      · split at h
        · exact absurd h (by simp)
        · exact ih _ _ _ h (isSome_alGet_alSet_of _ _ _ _ hsome)

/-- C10: `disconnect` and `delete` only shrink reverse-index buckets, never
remove them, so after the last connection of an entity is removed pair by
pair the entity's now-empty bucket remains and `known` still reports true;
`disconnect_entity` drops the bucket so `known` becomes false, and `clear`
empties the index so `known` is false there too. -/
theorem entity_bucket_persistence (r : Registry) (a : String) (e : Ent)
    (t : TagRef) :
    (∀ r', disconnect r (.node (.tag a)) (some (.ent e)) = .ok r' →
      (alGet r.tagged_entities e).isSome = true →
      (alGet r'.tagged_entities e).isSome = true ∧ known r' (.ent e) = true) ∧
    (∀ r', delete r t = .ok r' →
      (alGet r.tagged_entities e).isSome = true →
      (alGet r'.tagged_entities e).isSome = true ∧ known r' (.ent e) = true) ∧
    (∀ r', disconnect_entity r e = .ok r' → known r' (.ent e) = false) ∧
    known (clear r).1 (.ent e) = false := by
  refine ⟨?_, ?_, ?_, rfl⟩
  · intro r' hdisc hsome
    obtain ⟨bucket, hbk⟩ := Option.isSome_iff_exists.mp hsome
    cases hga : alGet r.all_tags a with
    | none => simp [disconnect, disconnectNode, hga] at hdisc
    | some conns =>
      by_cases hfwd : (alGet conns (Node.ent e)).isNone
      · simp [disconnect, disconnectNode, hga, hfwd] at hdisc
      · by_cases hrev : (alGet bucket a).isNone
        · simp [disconnect, disconnectNode, hga, hfwd, hbk, hrev] at hdisc
        · simp only [disconnect, disconnectNode, hga, hfwd, hbk, hrev,
            Bool.false_eq_true, if_false, Except.ok.injEq] at hdisc
          subst hdisc
          constructor
          · simp [alGet_alSet_self]
          · simp [known, alGet_alSet_self]
  · intro r' hdel hsome
    have resolve : ∀ n conns, alGet r.all_tags n = some conns →
        (match deleteRefs n r conns with
          | .error err => (.error err : Except PyErr Registry)
          | .ok r1 => .ok { r1 with all_tags := alDel r1.all_tags n }) = .ok r' →
        (alGet r'.tagged_entities e).isSome = true ∧ known r' (.ent e) = true := by
      intro n conns hga htail
      cases hrefs : deleteRefs n r conns with
      | error err => rw [hrefs] at htail; exact absurd htail (by simp)
      | ok r1 =>
        rw [hrefs] at htail
        injection htail with h1
        subst h1
        have key : (alGet r1.tagged_entities e).isSome = true :=
          deleteRefs_tagged_isSome n conns r r1 e hrefs hsome
        exact ⟨key, by simpa [known] using key⟩
    cases t with
    | byName s =>
      cases hga : alGet r.all_tags (normName r s) with
      | none => simp [delete, hga] at hdel
      | some conns =>
        refine resolve (normName r s) conns hga ?_
        simpa [delete, hga] using hdel
    | byTag n =>
      cases hga : alGet r.all_tags n with
      | none => simp [delete, hga] at hdel
      | some conns =>
        refine resolve n conns hga ?_
        simpa [delete, hga] using hdel
  · intro r' hde
    cases hbk : alGet r.tagged_entities e with
    | none =>
      simp only [disconnect_entity, hbk, Except.ok.injEq] at hde
      subst hde
      simp [known, hbk]
    | some bucket =>
      cases hrefs : disconnectEntityRefs r bucket with
      | error err => simp [disconnect_entity, hbk, hrefs] at hde
      | ok r1 =>
        by_cases hs : (alGet r1.tagged_entities e).isSome
        · simp only [disconnect_entity, hbk, hrefs, hs, if_true,
            Except.ok.injEq] at hde
          subst hde
          simp [known, alGet_alDel_self]
        · simp [disconnect_entity, hbk, hrefs, hs] at hde

/-- The registry in which tag `x` is connected to the entity `e`. -/
def regXE : Registry :=
  match connect regX (.node (.tag "x")) (some (.ent (.str "e"))) none with
  | .ok p => p.1
  | .error _ => regX

/-- The registry after disconnecting that pair again. -/
def regXEdisc : Registry :=
  match disconnect regXE (.node (.tag "x")) (some (.ent (.str "e"))) with
  | .ok r => r
  | .error _ => regXE

/-- The registry after deleting the tag `x` from `regXE`. -/
def regXEdel : Registry :=
  match delete regXE (.byTag "x") with
  | .ok r => r
  | .error _ => regXE

/-- The registry after `disconnect_entity` of `e` from `regXE`. -/
def regXEde : Registry :=
  match disconnect_entity regXE (.str "e") with
  | .ok r => r
  | .error _ => regXE

/-- Witness for the C10 theorem at concrete registries. -/
theorem entity_bucket_persistence_witness :
    known regXEdisc (.ent (.str "e")) = true ∧
    known regXEdel (.ent (.str "e")) = true ∧
    known regXEde (.ent (.str "e")) = false ∧
    known (clear regXE).1 (.ent (.str "e")) = false := by
  have h := entity_bucket_persistence regXE "x" (.str "e") (.byTag "x")
  exact ⟨(h.1 regXEdisc rfl rfl).2, (h.2.1 regXEdel rfl rfl).2,
    h.2.2.1 regXEde rfl, h.2.2.2⟩

/-! ## C8: delete completeness -/

theorem mem_keys_of_alGet_isSome {α β : Type} [DecidableEq α]
    (l : List (α × β)) (k : α) (h : (alGet l k).isSome = true) :
    k ∈ l.map Prod.fst := by
  induction l with
  | nil => simp [alGet] at h
  | cons p rest ih =>
    by_cases hp : p.1 = k
    · simp [hp]
    · simp [alGet, hp] at h
      simp [ih h]

theorem alGet_mem {α β : Type} [DecidableEq α]
    (l : List (α × β)) (k : α) (v : β) (h : alGet l k = some v) : (k, v) ∈ l := by
  induction l with
  | nil => simp [alGet] at h
  | cons p rest ih =>
    by_cases hp : p.1 = k
    · simp [alGet, hp] at h
      have hkv : (k, v) = p := by
        rw [Prod.ext_iff]
        exact ⟨hp.symm, h.symm⟩
      rw [hkv]
      exact List.mem_cons_self p rest
    · simp [alGet, hp] at h
      exact List.mem_cons_of_mem p (ih h)

theorem alGet_eq_of_mem_nodup {α β : Type} [DecidableEq α]
    (l : List (α × β)) (k : α) (v : β) (hnd : (l.map Prod.fst).Nodup)
    (h : (k, v) ∈ l) : alGet l k = some v := by
  induction l with
  | nil => simp at h
  | cons p rest ih =>
    simp only [List.mem_cons] at h
    simp only [List.map_cons, List.nodup_cons] at hnd
    rcases h with h | h
    · subst h
      simp [alGet]
    · have hk : p.1 ≠ k := by
        intro hpk
        exact hnd.1 (hpk ▸ (List.mem_map.mpr ⟨(k, v), h, rfl⟩))
      simp [alGet, hk]
      exact ih hnd.2 h

theorem isSome_alGet_alSet_eq {α β : Type} [DecidableEq α]
    (l : List (α × β)) (a : α) (v b' : β) (ha : alGet l a = some v) (n : α) :
    (alGet (alSet l a b') n).isSome = (alGet l n).isSome := by
  by_cases hn : a = n
  · subst hn
    simp [alGet_alSet_self, ha]
  · rw [alGet_alSet_ne _ _ _ _ hn]

theorem keys_alSet_of_isSome {α β : Type} [DecidableEq α]
    (l : List (α × β)) (a : α) (b : β) (h : (alGet l a).isSome = true) :
    (alSet l a b).map Prod.fst = l.map Prod.fst := by
  induction l with
  | nil => simp [alGet] at h
  | cons p rest ih =>
    by_cases hp : p.1 = a
    · simp [alSet, hp]
    · simp only [alGet, hp, if_false] at h
      simp [alSet, hp, ih h]

theorem tagConnAt_some_iff (r : Registry) (b : String) (k : Node) (c : Conn) :
    tagConnAt r b k = some c ↔
      ∃ bconns, alGet r.all_tags b = some bconns ∧ alGet bconns k = some c := by
  unfold tagConnAt
  cases h : alGet r.all_tags b <;> simp

theorem bucketAt_some_iff (r : Registry) (e : Ent) (n : String) (c : Conn) :
    bucketAt r e n = some c ↔
      ∃ bucket, alGet r.tagged_entities e = some bucket ∧ alGet bucket n = some c := by
  unfold bucketAt
  cases h : alGet r.tagged_entities e <;> simp

/-- The reverse reference that `delete`'s loop must find for a key of the
doomed tag's connections dict: the neighboring tag holds an entry keyed by
the doomed tag, or the entity's bucket holds an entry for it. -/
def RefOK (r : Registry) (a : String) : Node → Prop
  | .tag b => ∃ bconns, alGet r.all_tags b = some bconns ∧
      (alGet bconns (.tag a)).isSome = true
  | .ent e => ∃ bucket, alGet r.tagged_entities e = some bucket ∧
      (alGet bucket a).isSome = true

/-- Invariant argument for `delete`'s loop: if the keys still to process are
exactly the places that reference the doomed tag, each with its reverse
entry present, the loop succeeds and afterwards no tag's dict and no bucket
references the doomed tag, while the live tag names and the entity keys are
unchanged. -/
theorem deleteRefs_spec (a : String) (todo : List (Node × Conn)) :
    ∀ r : Registry,
      (todo.map Prod.fst).Nodup →
      (∀ p ∈ todo, p.2.target = p.1) →
      (∀ p ∈ todo, RefOK r a p.1) →
      (∀ b, tagConnAt r b (.tag a) ≠ none → (Node.tag b) ∈ todo.map Prod.fst) →
      (∀ e, bucketAt r e a ≠ none → (Node.ent e) ∈ todo.map Prod.fst) →
      ∃ r', deleteRefs a r todo = .ok r' ∧
        (∀ b, tagConnAt r' b (.tag a) = none) ∧
        (∀ e, bucketAt r' e a = none) ∧
        (∀ n, (alGet r'.all_tags n).isSome = (alGet r.all_tags n).isSome) ∧
        r'.tagged_entities.map Prod.fst = r.tagged_entities.map Prod.fst := by
  induction todo with
  | nil =>
    intro r _ _ _ h1 h2
    refine ⟨r, rfl, ?_, ?_, fun _ => rfl, rfl⟩
    · intro b
      by_contra h
      exact absurd (h1 b h) (by simp)
    · intro e
      by_contra h
      exact absurd (h2 e h) (by simp)
  | cons p rest ih =>
    intro r hnd htgt hok h1 h2
    obtain ⟨k, c⟩ := p
    have hct : c.target = k := htgt (k, c) (by simp)
    simp only [List.map_cons, List.nodup_cons] at hnd
    cases k with
    | tag b =>
      obtain ⟨bconns, hb, hrev⟩ := hok (.tag b, c) (by simp)
      have hne : alGet bconns (Node.tag a) ≠ none :=
        Option.ne_none_iff_isSome.mpr hrev
      obtain ⟨r2, hr2def⟩ : ∃ r2 : Registry, r2 =
          { r with all_tags := alSet r.all_tags b (alDel bconns (Node.tag a)) } :=
        ⟨_, rfl⟩
      have step : deleteRefs a r ((Node.tag b, c) :: rest) = deleteRefs a r2 rest := by
        conv_lhs => rw [deleteRefs]
        rw [hr2def]
        simp [hct, hb, hne]
      have hr2tags : ∀ b', b' ≠ b → alGet r2.all_tags b' = alGet r.all_tags b' := by
        intro b' hb'
        rw [hr2def]
        exact alGet_alSet_ne _ _ _ _ (Ne.symm hb')
      have hr2b : alGet r2.all_tags b = some (alDel bconns (Node.tag a)) := by
        rw [hr2def]
        exact alGet_alSet_self _ _ _
      have hr2te : r2.tagged_entities = r.tagged_entities := by
        rw [hr2def]
      obtain ⟨r', hrun, hc1, hc2, hc3, hc4⟩ := ih r2 hnd.2
        (fun q hq => htgt q (by simp [hq]))
        (fun q hq => by
          obtain ⟨kq, cq⟩ := q
          have hq0 := hok (kq, cq) (by simp [hq])
          cases kq with
          | tag b' =>
            obtain ⟨bc, hbc, hbrev⟩ := hq0
            have hb'ne : b' ≠ b := by
              intro heq
              subst heq
              exact hnd.1 (List.mem_map.mpr ⟨(Node.tag b', cq), hq, rfl⟩)
            exact ⟨bc, (hr2tags b' hb'ne) ▸ hbc, hbrev⟩
          | ent e' =>
            obtain ⟨bc, hbc, hbrev⟩ := hq0
            exact ⟨bc, hr2te ▸ hbc, hbrev⟩)
        (fun b' hb' => by
          by_cases hbb : b' = b
          · subst hbb
            exfalso
            apply hb'
            simp [tagConnAt, hr2b, alGet_alDel_self]
          · have hprev : tagConnAt r b' (.tag a) ≠ none := by
              unfold tagConnAt at hb' ⊢
              rw [hr2tags b' hbb] at hb'
              exact hb'
            have hmem := h1 b' hprev
            simp only [List.map_cons, List.mem_cons] at hmem
            rcases hmem with hmem | hmem
            · exact absurd hmem (by simp [hbb])
            · exact hmem)
        (fun e' he' => by
          have hprev : bucketAt r e' a ≠ none := by
            unfold bucketAt at he' ⊢
            rw [hr2te] at he'
            exact he'
          have hmem := h2 e' hprev
          simp only [List.map_cons, List.mem_cons] at hmem
          rcases hmem with hmem | hmem
          · exact absurd hmem (by simp)
          · exact hmem)
      refine ⟨r', by rw [step]; exact hrun, hc1, hc2, ?_, by rw [hc4, hr2te]⟩
      intro n
      rw [hc3 n, hr2def]
      exact isSome_alGet_alSet_eq _ _ _ _ hb n
    | ent e =>
      obtain ⟨bucket, hbk, hrev⟩ := hok (.ent e, c) (by simp)
      have hne : alGet bucket a ≠ none :=
        Option.ne_none_iff_isSome.mpr hrev
      obtain ⟨r2, hr2def⟩ : ∃ r2 : Registry, r2 =
          { r with tagged_entities := alSet r.tagged_entities e (alDel bucket a) } :=
        ⟨_, rfl⟩
      have step : deleteRefs a r ((Node.ent e, c) :: rest) = deleteRefs a r2 rest := by
        conv_lhs => rw [deleteRefs]
        rw [hr2def]
        simp [hct, hbk, hne]
      have hr2tags : r2.all_tags = r.all_tags := by
        rw [hr2def]
      have hr2bke : alGet r2.tagged_entities e = some (alDel bucket a) := by
        rw [hr2def]
        exact alGet_alSet_self _ _ _
      have hr2bk : ∀ e', e' ≠ e →
          alGet r2.tagged_entities e' = alGet r.tagged_entities e' := by
        intro e' he'
        rw [hr2def]
        exact alGet_alSet_ne _ _ _ _ (Ne.symm he')
      obtain ⟨r', hrun, hc1, hc2, hc3, hc4⟩ := ih r2 hnd.2
        (fun q hq => htgt q (by simp [hq]))
        (fun q hq => by
          obtain ⟨kq, cq⟩ := q
          have hq0 := hok (kq, cq) (by simp [hq])
          cases kq with
          | tag b' =>
            obtain ⟨bc, hbc, hbrev⟩ := hq0
            exact ⟨bc, hr2tags ▸ hbc, hbrev⟩
          | ent e' =>
            obtain ⟨bc, hbc, hbrev⟩ := hq0
            have he'ne : e' ≠ e := by
              intro heq
              subst heq
              exact hnd.1 (List.mem_map.mpr ⟨(Node.ent e', cq), hq, rfl⟩)
            exact ⟨bc, (hr2bk e' he'ne) ▸ hbc, hbrev⟩)
        (fun b' hb' => by
          have hprev : tagConnAt r b' (.tag a) ≠ none := by
            unfold tagConnAt at hb' ⊢
            rw [hr2tags] at hb'
            exact hb'
          have hmem := h1 b' hprev
          simp only [List.map_cons, List.mem_cons] at hmem
          rcases hmem with hmem | hmem
          · exact absurd hmem (by simp)
          · exact hmem)
        (fun e' he' => by
          by_cases hee : e' = e
          · subst hee
            exfalso
            apply he'
            simp [bucketAt, hr2bke, alGet_alDel_self]
          · have hprev : bucketAt r e' a ≠ none := by
              unfold bucketAt at he' ⊢
              rw [hr2bk e' hee] at he'
              exact he'
            have hmem := h2 e' hprev
            simp only [List.map_cons, List.mem_cons] at hmem
            rcases hmem with hmem | hmem
            · exact absurd hmem (by simp [hee])
            · exact hmem)
      refine ⟨r', by rw [step]; exact hrun, hc1, hc2, fun n => by
        rw [hc3 n, hr2tags], ?_⟩
      rw [hc4, hr2def]
      exact keys_alSet_of_isSome _ _ _ (by simp [hbk])

/-- Well-formedness of one stored connection entry of tag `n` keyed by `k`:
the connection runs from the tag to the key, and the matching inverse is
stored at the key's adjacency (the other tag's dict, or the entity's
reverse-index bucket). -/
def ConnEntryWF (r : Registry) (n : String) (k : Node) (c : Conn) : Prop :=
  c.source = .tag n ∧ c.target = k ∧
  (match k with
   | .tag b => c.type.isTagTag = true ∧
       tagConnAt r b (.tag n) = some ⟨.tag b, .tag n, inverse_type c.type⟩
   | .ent e => c.type = .toEnt ∧
       bucketAt r e n = some ⟨.ent e, .tag n, .entToTag⟩)

/-- Well-formedness of a tag's connections dict. -/
def TagWF (r : Registry) (n : String) (conns : List (Node × Conn)) : Prop :=
  (conns.map Prod.fst).Nodup ∧ normName r n = n ∧
  ∀ p ∈ conns, ConnEntryWF r n p.1 p.2

/-- Well-formedness of a reverse-index bucket: every entry is the inverse
connection of a stored tag-entity connection. -/
def BucketWF (r : Registry) (e : Ent) (bucket : List (String × Conn)) : Prop :=
  (bucket.map Prod.fst).Nodup ∧
  ∀ p ∈ bucket, p.2 = ⟨.ent e, .tag p.1, .entToTag⟩ ∧
    tagConnAt r p.1 (.ent e) = some ⟨.tag p.1, .ent e, .toEnt⟩

/-- Well-formedness of a registry state, as maintained by the connect and
disconnect protocol: dict keys are unique, stored connections run from their
tag to their key with the matching inverse stored symmetrically, and names
are normalization-fixed. -/
structure WFReg (r : Registry) : Prop where
  namesNodup : (r.all_tags.map Prod.fst).Nodup
  entsNodup : (r.tagged_entities.map Prod.fst).Nodup
  tagsWF : ∀ p ∈ r.all_tags, TagWF r p.1 p.2
  bucketsWF : ∀ q ∈ r.tagged_entities, BucketWF r q.1 q.2

/-- C8: deleting a live tag `a` from a well-formed registry succeeds, and
afterwards no remaining tag's connections dict has an entry keyed by `a`, no
reverse-index bucket has `a` as a key, and `a` is gone from `all_tags`. -/
theorem delete_completeness (r : Registry) (a : String) (hWF : WFReg r)
    (hlive : (alGet r.all_tags a).isSome = true) :
    ∃ r', delete r (.byTag a) = .ok r' ∧
      alGet r'.all_tags a = none ∧
      (∀ n conns, alGet r'.all_tags n = some conns → alGet conns (.tag a) = none) ∧
      (∀ e bucket, alGet r'.tagged_entities e = some bucket →
        alGet bucket a = none) := by
  obtain ⟨conns, hconns⟩ := Option.isSome_iff_exists.mp hlive
  have hmem : (a, conns) ∈ r.all_tags := alGet_mem _ _ _ hconns
  have hTagWF := hWF.tagsWF (a, conns) hmem
  have hnd : (conns.map Prod.fst).Nodup := hTagWF.1
  have htgt : ∀ p ∈ conns, p.2.target = p.1 :=
    fun p hp => (hTagWF.2.2 p hp).2.1
  have hok : ∀ p ∈ conns, RefOK r a p.1 := by
    intro p hp
    obtain ⟨kq, cq⟩ := p
    have hce := hTagWF.2.2 (kq, cq) hp
    cases kq with
    | tag b =>
      obtain ⟨bconns, hbcs, hbc⟩ := (tagConnAt_some_iff r b (.tag a) _).mp hce.2.2.2
      exact ⟨bconns, hbcs, by simp [hbc]⟩
    | ent e =>
      obtain ⟨bucket, hbks, hbk⟩ := (bucketAt_some_iff r e a _).mp hce.2.2.2
      exact ⟨bucket, hbks, by simp [hbk]⟩
  have h1 : ∀ b, tagConnAt r b (.tag a) ≠ none →
      (Node.tag b) ∈ conns.map Prod.fst := by
    intro b hb
    cases hcb : tagConnAt r b (.tag a) with
    | none => exact absurd hcb hb
    | some c' =>
      obtain ⟨bconns, hbcs, hbc⟩ := (tagConnAt_some_iff r b (.tag a) c').mp hcb
      have hbWF := hWF.tagsWF (b, bconns) (alGet_mem _ _ _ hbcs)
      have hce := hbWF.2.2 ((.tag a : Node), c') (alGet_mem _ _ _ hbc)
      have hta : tagConnAt r a (.tag b) =
          some ⟨.tag a, .tag b, inverse_type c'.type⟩ := hce.2.2.2
      obtain ⟨aconns, ha1, ha2⟩ := (tagConnAt_some_iff r a (.tag b) _).mp hta
      rw [hconns] at ha1
      injection ha1 with ha1
      subst ha1
      exact mem_keys_of_alGet_isSome _ _ (by simp [ha2])
  have h2 : ∀ e, bucketAt r e a ≠ none →
      (Node.ent e) ∈ conns.map Prod.fst := by
    intro e he
    cases hcb : bucketAt r e a with
    | none => exact absurd hcb he
    | some c' =>
      obtain ⟨bucket, hbks, hbk⟩ := (bucketAt_some_iff r e a c').mp hcb
      have hbWF := hWF.bucketsWF (e, bucket) (alGet_mem _ _ _ hbks)
      have hce := hbWF.2 (a, c') (alGet_mem _ _ _ hbk)
      obtain ⟨aconns, ha1, ha2⟩ := (tagConnAt_some_iff r a (.ent e) _).mp hce.2
      rw [hconns] at ha1
      injection ha1 with ha1
      subst ha1
      exact mem_keys_of_alGet_isSome _ _ (by simp [ha2])
  obtain ⟨r', hrun, hc1, hc2, hc3, _⟩ :=
    deleteRefs_spec a conns r hnd htgt hok h1 h2
  refine ⟨{ r' with all_tags := alDel r'.all_tags a }, ?_, ?_, ?_, ?_⟩
  · unfold delete
    simp [hconns, hrun]
  · exact alGet_alDel_self _ _
  · intro n cns hcn
    by_cases hna : n = a
    · subst hna
      rw [show ({ r' with all_tags := alDel r'.all_tags n } : Registry).all_tags =
        alDel r'.all_tags n from rfl, alGet_alDel_self] at hcn
      exact absurd hcn (by simp)
    · rw [show ({ r' with all_tags := alDel r'.all_tags a } : Registry).all_tags =
        alDel r'.all_tags a from rfl,
        alGet_alDel_ne _ _ _ (fun h => hna h.symm)] at hcn
      have hc := hc1 n
      unfold tagConnAt at hc
      rw [hcn] at hc
      exact hc
  · intro e bucket hbk
    have hbk' : alGet r'.tagged_entities e = some bucket := hbk
    have hc := hc2 e
    unfold bucketAt at hc
    rw [hbk'] at hc
    exact hc

/-- The concrete registry `regXE` (tag `x` connected to entity `e`) is
well-formed. -/
theorem wfRegXE : WFReg regXE := by
  have hreg : regXE = ⟨true,
      [("x", [(Node.ent (Ent.str "e"),
        ⟨Node.tag "x", Node.ent (Ent.str "e"), ConnType.toEnt⟩)])],
      [(Ent.str "e", [("x",
        ⟨Node.ent (Ent.str "e"), Node.tag "x", ConnType.entToTag⟩)])]⟩ := rfl
  refine ⟨by decide, by decide, ?_, ?_⟩
  · intro p hp
    rw [hreg] at hp
    simp only [List.mem_singleton] at hp
    subst hp
    refine ⟨by decide, rfl, ?_⟩
    intro q hq
    simp only [List.mem_singleton] at hq
    subst hq
    exact ⟨rfl, rfl, rfl, rfl⟩
  · intro q hq
    rw [hreg] at hq
    simp only [List.mem_singleton] at hq
    subst hq
    refine ⟨by decide, ?_⟩
    intro p hp
    simp only [List.mem_singleton] at hp
    subst hp
    exact ⟨rfl, rfl⟩

/-- Witness for the C8 theorem: delete tag `x` from the concrete registry
in which it is connected to entity `e`. -/
theorem delete_completeness_witness :
    alGet regXEdel.all_tags "x" = none ∧
    bucketAt regXEdel (.str "e") "x" = none := by
  obtain ⟨r', hok, h1, h2, h3⟩ := delete_completeness regXE "x" wfRegXE rfl
  have hr : (Except.ok regXEdel : Except PyErr Registry) = .ok r' := by
    rw [show (Except.ok regXEdel : Except PyErr Registry) =
      delete regXE (.byTag "x") from rfl, hok]
  injection hr with hr2
  rw [hr2]
  refine ⟨h1, ?_⟩
  cases hbk : alGet r'.tagged_entities (.str "e") with
  | none => simp [bucketAt, hbk]
  | some bucket => simp [bucketAt, hbk, h3 _ _ hbk]

/-! ## C2: JSON save and load round trip

`save_json` emits, for every tag in registry order, the json object text
for `{name: [[src, type, target], ...]}` by plain string formatting: a tag
endpoint appears as its quoted name (unescaped), an entity endpoint as its
serialized form.  `load_json` runs `json.loads` on that text and replays
the parsed objects through `load_tag` and the list branch of `load`.  The
model below has both layers: `save_json` builds the emitted string the way
the source's format calls do, `jsonLoads` models `json.loads` on the json
subset the save format uses, and the replay functions consume the parsed
values.  `NodeRepr`/`TagDict` describe one parsed tag object, obtained from
the json value at the `load_tag` boundary. -/

/-- The parsed form of one serialized connection endpoint. -/
inductive NodeRepr where
  | name (s : String)
  | entJson (cls : String) (data : String)
  | other (s : String)
deriving DecidableEq, Repr

/-- Serialization of an entity endpoint: a `RelationalEntity` instance emits
its json dict carrying the reserved class field; any other entity emits its
plain string form, which carries no class field. -/
def entToRepr : Ent → NodeRepr
  | .rent cls data => .entJson cls data
  | .str s => .other s

/-- Serialization of a connection endpoint: a tag as its name string, an
entity through the entity serialization protocol. -/
def nodeToRepr : Node → NodeRepr
  | .tag n => .name n
  | .ent e => entToRepr e

/-- The parsed form of `RelationalTagConnection.__str__`: the three-element
array of source form, type name and target form. -/
def connToRepr (c : Conn) : NodeRepr × ConnType × NodeRepr :=
  (nodeToRepr c.source, c.type, nodeToRepr c.target)

/-- The parsed form of one tag's `__str__`: its name and the serialized
forms of its stored connections in dict order. -/
abbrev TagDict := String × List (NodeRepr × ConnType × NodeRepr)

/-- The structural image of the registry used to relate the replay to the
saved state: every tag's name with its connections' serialized triples, in
registry order.  When the registry's strings are json-safe this is exactly
what parsing the `save_json` text yields. -/
def saveStruct (r : Registry) : List TagDict :=
  r.all_tags.map (fun p => (p.1, p.2.map (fun q => connToRepr q.2)))

/-- The loop of `load_tag` over the parsed connection arrays: a tag-tag type
fetches or creates the target tag by name and connects; an entity type
resolves the target's declared class in the `RelationalEntity.classes`
registry, rebuilds the entity through its `load_entity`, and connects; a
missing or unknown class raises the format error unless `skip_bad_conns`
downgrades it to a logged skip.  The rebuilt entity is the one identified by
its class name and serialized payload, which is what the entity
serialization protocol requires of `load_entity`. -/
def loadConns (classes : List String) (skip_bad_conns : Bool) (tname : String) :
    Registry → List (NodeRepr × ConnType × NodeRepr) → Except PyErr Registry
  | r, [] => .ok r
  | r, (_, ctype, tgt) :: rest =>
    if ctype.isTagTag then
      match tgt with
      | .name s =>
        match rtGet r s true with
        | .error e => .error e
        | .ok (r1, tgtname) =>
          match connect r1 (.node (.tag tname)) (some (.tag tgtname)) (some ctype) with
          | .error e => .error e
          | .ok (r2, _) => loadConns classes skip_bad_conns tname r2 rest
      | _ => .error .attributeError
    else
      match tgt with
      | .entJson cls data =>
        if cls ∈ classes then
          match connect r (.node (.tag tname)) (some (.ent (.rent cls data)))
              (some ctype) with
          | .error e => .error e
          | .ok (r2, _) => loadConns classes skip_bad_conns tname r2 rest
        else
          if skip_bad_conns then loadConns classes skip_bad_conns tname r rest
          else .error (.rtError .format)
      | _ =>
        if skip_bad_conns then loadConns classes skip_bad_conns tname r rest
        else .error (.rtError .format)

/-- `RelationalTag.load_tag` on the parsed form of one tag: create or fetch
the named tag, look the connection list up under the created tag's name (a
`KeyError` escapes if normalization changed the name), and replay each
connection. -/
def load_tag (classes : List String) (r : Registry) (td : TagDict)
    (get_if_exists skip_bad_conns : Bool) : Except PyErr (Registry × String) :=
  match rtNew r td.1 get_if_exists with
  | .error e => .error e
  | .ok (r1, tname) =>
    if td.1 = tname then
      match loadConns classes skip_bad_conns tname r1 td.2 with
      | .error e => .error e
      | .ok r2 => .ok (r2, tname)
    else .error .keyError

/-- The list branch of `RelationalTag.load` as invoked by `load_json`: each
already-registered tag object is assigned back into `all_tags` under its own
name, which re-stores the registered entry unchanged. -/
def load_list (r : Registry) (names : List String) : Registry :=
  names.foldl (fun acc n =>
    match alGet acc.all_tags n with
    | some conns => { acc with all_tags := alSet acc.all_tags n conns }
    | none => acc) r

/-- The loop of `load_json` over the parsed tag dicts. -/
def loadTagsFold (classes : List String) (get_if_exists skip_bad_conns : Bool) :
    Registry → List TagDict → Except PyErr (Registry × List String)
  | r, [] => .ok (r, [])
  | r, td :: rest =>
    match load_tag classes r td get_if_exists skip_bad_conns with
    | .error e => .error e
    | .ok (r1, tname) =>
      match loadTagsFold classes get_if_exists skip_bad_conns r1 rest with
      | .error e => .error e
      | .ok (r2, names) => .ok (r2, tname :: names)

/-- A json value, restricted to the shapes the save format emits: strings,
arrays and objects.  `json.loads` accepts more (numbers, booleans, null),
but the text `save_json` builds is made entirely of these three. -/
inductive JsonVal where
  | str (s : String)
  | arr (xs : List JsonVal)
  | obj (fields : List (String × JsonVal))

/-- Modelled from the spec: the escape sequences `json.loads` resolves after
a backslash inside a string (the `\uXXXX` form is left out; the strings the
claims feed to the decoder never reach it). -/
def escChar (c : Char) : Option Char :=
  if c = '"' then some '"'
  else if c = '\\' then some '\\'
  else if c = '/' then some '/'
  else if c = 'b' then some '\x08'
  else if c = 'f' then some '\x0c'
  else if c = 'n' then some '\n'
  else if c = 'r' then some '\r'
  else if c = 't' then some '\t'
  else none

/-- Modelled from the spec: the body of a json string after its opening
quote, as `json.loads` reads it: a closing quote ends the string, a
backslash starts an escape, an unescaped control character is rejected,
any other character stands for itself. -/
def parseStrBody : List Char → Option (List Char × List Char)
  | [] => none
  | c :: cs =>
    if c = '"' then some ([], cs)
    else if c = '\\' then
      match cs with
      | [] => none
      | e :: cs2 =>
        match escChar e with
        | none => none
        | some ec =>
          match parseStrBody cs2 with
          | some (s, r) => some (ec :: s, r)
          | none => none
    else if c.toNat < 32 then none
    else
      match parseStrBody cs with
      | some (s, r) => some (c :: s, r)
      | none => none

mutual

/-- Modelled from the spec: `json.loads` reading one value off the front of
the input, on the json subset the save format emits (strings, arrays,
objects).  Anything else is a decode failure.  The fuel argument bounds the
recursion and is taken from the input length at the entry point. -/
def parseVal : Nat → List Char → Option (JsonVal × List Char)
  | 0, _ => none
  | Nat.succ fuel, cs =>
    match cs with
    | [] => none
    | c :: cs1 =>
      if c = '"' then
        (parseStrBody cs1).map (fun p => (JsonVal.str (String.mk p.1), p.2))
      else if c = '[' then
        match cs1 with
        | [] => none
        | c2 :: cs2 =>
          if c2 = ']' then some (.arr [], cs2)
          else (parseItems fuel cs1).map (fun p => (JsonVal.arr p.1, p.2))
      else if c = '\x7b' then
        match cs1 with
        | [] => none
        | c2 :: cs2 =>
          if c2 = '\x7d' then some (.obj [], cs2)
          else (parseFields fuel cs1).map (fun p => (JsonVal.obj p.1, p.2))
      else none

/-- The elements of a non-empty json array, consuming the closing bracket. -/
def parseItems : Nat → List Char → Option (List JsonVal × List Char)
  | 0, _ => none
  | Nat.succ fuel, cs =>
    (parseVal fuel cs).bind (fun p =>
      match p.2 with
      | [] => none
      | c :: r1 =>
        if c = ',' then
          (parseItems fuel r1).map (fun q => (p.1 :: q.1, q.2))
        else if c = ']' then some ([p.1], r1)
        else none)

/-- The fields of a non-empty json object, consuming the closing brace. -/
def parseFields : Nat → List Char → Option (List (String × JsonVal) × List Char)
  | 0, _ => none
  | Nat.succ fuel, cs =>
    match cs with
    | [] => none
    | c :: cs1 =>
      if c = '"' then
        (parseStrBody cs1).bind (fun kp =>
          match kp.2 with
          | [] => none
          | c2 :: r1 =>
            if c2 = ':' then
              (parseVal fuel r1).bind (fun vp =>
                match vp.2 with
                | [] => none
                | c3 :: r3 =>
                  if c3 = ',' then
                    (parseFields fuel r3).map
                      (fun q => ((String.mk kp.1, vp.1) :: q.1, q.2))
                  else if c3 = '\x7d' then some ([(String.mk kp.1, vp.1)], r3)
                  else none)
            else none)
      else none

end

/-- Modelled from the spec: `json.loads` on the save format's json subset.
The parse must consume the whole input; any failure is the decode error the
python json module raises. -/
def jsonLoads (s : String) : Option JsonVal :=
  match parseVal (s.length + 1) s.data with
  | some (v, []) => some v
  | _ => none

/-- `','.join`: the strings joined on a comma separator. -/
def joinComma : List String → String
  | [] => ""
  | [s] => s
  | s :: rest => s ++ "," ++ joinComma rest

/-- The five connection type constants, the strings stored for `self.type`
in the serialized text. -/
def connTypeName : ConnType → String
  | .toTagUndirected => "TO_TAG_UNDIRECTED"
  | .toTagParent => "TO_TAG_PARENT"
  | .toTagChild => "TO_TAG_CHILD"
  | .toEnt => "TO_ENT"
  | .entToTag => "ENT_TO_TAG"

mutual

/-- The compact text of a json value with every string interpolated raw, no
escaping -- the shape shared by all the format calls of `__str__` and
`save_json`, which is faithful json only when the interpolated strings are
json-safe. -/
def printJson : JsonVal → String
  | .str s => "\"" ++ s ++ "\""
  | .arr xs => "[" ++ joinComma (printJsonList xs) ++ "]"
  | .obj fs => "\x7b" ++ joinComma (printJsonFields fs) ++ "\x7d"

def printJsonList : List JsonVal → List String
  | [] => []
  | x :: xs => printJson x :: printJsonList xs

def printJsonFields : List (String × JsonVal) → List String
  | [] => []
  | f :: fs => ("\"" ++ f.1 ++ "\":" ++ printJson f.2) :: printJsonFields fs

end

/-- Modelled from the spec: `RelationalEntity.__str__` for a registered
entity instance serializes it as the json object text holding the reserved
class field and its payload.  A plain entity falls back to its raw python
string form, which need not be json at all. -/
def entityStr : Ent → String
  | .rent cls data => printJson (.obj [("class", .str cls), ("data", .str data)])
  | .str s => s

/-- One endpoint of `RelationalTagConnection.__str__`: a tag as its quoted
name by plain formatting (no escaping), an entity through its own string
form. -/
def endpointStr : Node → String
  | .tag n => "\"" ++ n ++ "\""
  | .ent e => entityStr e

/-- `RelationalTagConnection.__str__`: the format
`[source_str,"type",target_str]`. -/
def connStr (c : Conn) : String :=
  "[" ++ endpointStr c.source ++ ",\"" ++ connTypeName c.type ++ "\"," ++
    endpointStr c.target ++ "]"

/-- `RelationalTag.__str__`: the tag's name interpolated unescaped into the
object text, with its connections' string forms comma-joined. -/
def tagStr (p : String × List (Node × Conn)) : String :=
  "\x7b\"" ++ p.1 ++ "\":[" ++ joinComma (p.2.map (fun q => connStr q.2)) ++
    "]\x7d"

/-- `RelationalTag.save_json`: the tag strings comma-joined inside a json
array, by plain string formatting. -/
def save_json (r : Registry) : String :=
  "[" ++ joinComma (r.all_tags.map tagStr) ++ "]"

/-- A character that raw interpolation may place inside a json string
without breaking its structure: not a quote, not a backslash, not a control
character.  These are exactly the characters `parseStrBody` takes
literally. -/
def jsonSafeChar (c : Char) : Bool :=
  if c = '"' then false
  else if c = '\\' then false
  else if c.toNat < 32 then false
  else true

/-- A string whose raw interpolation into the saved text stays a faithful
json string literal. -/
def jsonSafeStr (s : String) : Bool :=
  s.data.all jsonSafeChar

mutual

/-- Every string of the json value is json-safe, so its raw-interpolated
text is faithful json. -/
def jsonSafe : JsonVal → Bool
  | .str s => jsonSafeStr s
  | .arr xs => jsonSafeList xs
  | .obj fs => jsonSafeFields fs

def jsonSafeList : List JsonVal → Bool
  | [] => true
  | x :: xs => jsonSafe x && jsonSafeList xs

def jsonSafeFields : List (String × JsonVal) → Bool
  | [] => true
  | f :: fs => jsonSafeStr f.1 && jsonSafe f.2 && jsonSafeFields fs

end

mutual

/-- Fuel sufficient for `parseVal` to read the printed form of a value. -/
def jsonFuel : JsonVal → Nat
  | .str _ => 1
  | .arr xs => 1 + jsonFuelItems xs
  | .obj fs => 1 + jsonFuelFields fs

def jsonFuelItems : List JsonVal → Nat
  | [] => 0
  | x :: xs => 1 + jsonFuel x + jsonFuelItems xs

def jsonFuelFields : List (String × JsonVal) → Nat
  | [] => 0
  | f :: fs => 1 + jsonFuel f.2 + jsonFuelFields fs

end

/-- The json value behind a serialized endpoint form: name strings are json
strings, a registered entity's form is its class/payload object.  The raw
form of a plain entity has no faithful json value; it is mapped to a string
here and ruled out where this embedding is used. -/
def reprJson : NodeRepr → JsonVal
  | .name s => .str s
  | .entJson cls data => .obj [("class", .str cls), ("data", .str data)]
  | .other s => .str s

/-- The json value of one serialized connection: the three-element array of
source form, type constant and target form. -/
def connTripleJson (x : NodeRepr × ConnType × NodeRepr) : JsonVal :=
  .arr [reprJson x.1, .str (connTypeName x.2.1), reprJson x.2.2]

/-- The json value of one tag's serialized object. -/
def tagDictJson (td : TagDict) : JsonVal :=
  .obj [(td.1, .arr (td.2.map connTripleJson))]

/-- The json value whose compact raw-interpolated text `save_json` emits. -/
def saveJsonValue (r : Registry) : JsonVal :=
  .arr ((saveStruct r).map tagDictJson)

/-- The inverse of the type constant table: the membership tests of
`load_tag` recognize exactly these five strings. -/
def strToConnType (s : String) : Option ConnType :=
  if s = "TO_TAG_UNDIRECTED" then some .toTagUndirected
  else if s = "TO_TAG_PARENT" then some .toTagParent
  else if s = "TO_TAG_CHILD" then some .toTagChild
  else if s = "TO_ENT" then some .toEnt
  else if s = "ENT_TO_TAG" then some .entToTag
  else none

/-- One parsed endpoint at the `load_tag` boundary: a json string is a name
string, a json object carrying the reserved class field (and its payload)
is a serialized `RelationalEntity`, anything else carries no class field
and is unloadable. -/
def jsonToRepr : JsonVal → NodeRepr
  | .str s => .name s
  | .obj fs =>
    match alGet fs "class", alGet fs "data" with
    | some (.str cls), some (.str data) => .entJson cls data
    | _, _ => .other ""
  | _ => .other ""

/-- One parsed connection array at the `load_tag` boundary: the
three-element array of source form, type string and target form.  A type
string outside the five constants has no `ConnType` image; such shapes
never come from `save_json` output and are mapped to the format failure. -/
def jsonToConnTriple (v : JsonVal) : Option (NodeRepr × ConnType × NodeRepr) :=
  match v with
  | .arr [s, .str t, tgt] =>
    match strToConnType t with
    | some ct => some (jsonToRepr s, ct, jsonToRepr tgt)
    | none => none
  | _ => none

/-- All-or-nothing traversal of a list under a partial conversion. -/
def mapOpt {α β : Type} (f : α → Option β) : List α → Option (List β)
  | [] => some []
  | a :: rest =>
    match f a with
    | none => none
    | some b =>
      match mapOpt f rest with
      | none => none
      | some bs => some (b :: bs)

/-- One parsed tag object at the `load_tag` boundary: the name is the
object's first key (`list(tag_json.keys())[0]`) and the connection arrays
are the array stored there.  Shapes outside the save format (an empty
object, a non-array value, a malformed connection array) have no faithful
image and surface as the format failure. -/
def jsonToTagDict (v : JsonVal) : Option TagDict :=
  match v with
  | .obj ((name, .arr conns) :: _) =>
    match mapOpt jsonToConnTriple conns with
    | some triples => some (name, triples)
    | none => none
  | _ => none

/-- `RelationalTag.load_tag` called on one parsed json value. -/
def load_tag_json (classes : List String) (r : Registry) (v : JsonVal)
    (get_if_exists skip_bad_conns : Bool) : Except PyErr (Registry × String) :=
  match jsonToTagDict v with
  | none => .error (.rtError .format)
  | some td => load_tag classes r td get_if_exists skip_bad_conns

/-- The loop of `load_json` over the elements of the parsed array. -/
def loadTagsFoldJson (classes : List String)
    (get_if_exists skip_bad_conns : Bool) :
    Registry → List JsonVal → Except PyErr (Registry × List String)
  | r, [] => .ok (r, [])
  | r, v :: rest =>
    match load_tag_json classes r v get_if_exists skip_bad_conns with
    | .error e => .error e
    | .ok (r1, tname) =>
      match loadTagsFoldJson classes get_if_exists skip_bad_conns r1 rest with
      | .error e => .error e
      | .ok (r2, names) => .ok (r2, tname :: names)

/-- `RelationalTag.load_json`: run `json.loads` on the text (a decode
failure escapes uncaught as the decode error), load each element of the
parsed array as a tag, then run the list branch of `load` over the loaded
tags.  A parse result that is not an array cannot be iterated as tag
objects and fails likewise. -/
def load_json (classes : List String) (r : Registry) (json_in : String)
    (get_if_exists skip_bad_conns : Bool) : Except PyErr Registry :=
  match jsonLoads json_in with
  | none => .error .jsonDecodeError
  | some (.arr items) =>
    match loadTagsFoldJson classes get_if_exists skip_bad_conns r items with
    | .error e => .error e
    | .ok (r1, names) => .ok (load_list r1 names)
  | some _ => .error (.rtError .format)

theorem data_append (a b : String) : (a ++ b).data = a.data ++ b.data := rfl

theorem jsonSafeChar_spec (c : Char) (h : jsonSafeChar c = true) :
    c ≠ '"' ∧ c ≠ '\\' ∧ ¬ c.toNat < 32 := by
  unfold jsonSafeChar at h
  split at h
  · exact absurd h (by simp)
  · split at h
    · exact absurd h (by simp)
    · split at h
      · exact absurd h (by simp)
      · rename_i h1 h2 h3
        exact ⟨h1, h2, h3⟩

theorem parseStrBody_safe (cs : List Char) (h : cs.all jsonSafeChar = true) :
    ∀ rest, parseStrBody (cs ++ '"' :: rest) = some (cs, rest) := by
  induction cs with
  | nil =>
    intro rest
    show parseStrBody ('"' :: rest) = some ([], rest)
    unfold parseStrBody
    simp
  | cons c cs ih =>
    intro rest
    rw [List.all_cons, Bool.and_eq_true] at h
    obtain ⟨h1, h2, h3⟩ := jsonSafeChar_spec c h.1
    show parseStrBody (c :: (cs ++ '"' :: rest)) = some (c :: cs, rest)
    unfold parseStrBody
    rw [if_neg h1, if_neg h2, if_neg h3, ih h.2 rest]

theorem jsonFuel_pos (v : JsonVal) : 1 ≤ jsonFuel v := by
  cases v <;> simp only [jsonFuel] <;> omega

theorem printJson_head (v : JsonVal) : ∃ t,
    (printJson v).data = '"' :: t ∨ (printJson v).data = '[' :: t ∨
      (printJson v).data = '\x7b' :: t := by
  cases v with
  | str s => exact ⟨s.data ++ ['"'], Or.inl rfl⟩
  | arr xs =>
    exact ⟨(joinComma (printJsonList xs)).data ++ [']'], Or.inr (Or.inl rfl)⟩
  | obj fs =>
    exact ⟨(joinComma (printJsonFields fs)).data ++ ['\x7d'],
      Or.inr (Or.inr rfl)⟩

theorem joinComma_cons_data (s : String) (l : List String) :
    ∃ t, (joinComma (s :: l)).data = s.data ++ t := by
  cases l with
  | nil => exact ⟨[], (List.append_nil s.data).symm⟩
  | cons s2 l2 =>
    refine ⟨',' :: (joinComma (s2 :: l2)).data, ?_⟩
    show ((s ++ ",") ++ joinComma (s2 :: l2)).data = _
    simp [data_append]

mutual

theorem parse_printJson (v : JsonVal) (hs : jsonSafe v = true) :
    ∀ fuel, jsonFuel v ≤ fuel → ∀ rest,
      parseVal fuel ((printJson v).data ++ rest) = some (v, rest) := by
  intro fuel hfuel rest
  cases fuel with
  | zero => exact absurd (Nat.le_trans (jsonFuel_pos v) hfuel) (by omega)
  | succ f =>
    cases v with
    | str s =>
      have hsafe : s.data.all jsonSafeChar = true := hs
      have hdata : (printJson (JsonVal.str s)).data ++ rest
          = '"' :: (s.data ++ '"' :: rest) := by
        show ('"' :: (s.data ++ ['"'])) ++ rest = _
        simp
      rw [hdata]
      unfold parseVal
      simp [parseStrBody_safe s.data hsafe rest]
    | arr xs =>
      cases xs with
      | nil =>
        have hdata : (printJson (JsonVal.arr [])).data ++ rest
            = '[' :: ']' :: rest := rfl
        rw [hdata]
        unfold parseVal
        simp
      | cons x xs' =>
        have hfI : jsonFuelItems (x :: xs') ≤ f := by
          have : jsonFuel (JsonVal.arr (x :: xs'))
              = 1 + jsonFuelItems (x :: xs') := rfl
          omega
        have hdata : (printJson (JsonVal.arr (x :: xs'))).data ++ rest
            = '[' :: ((joinComma (printJsonList (x :: xs'))).data ++
                ']' :: rest) := by
          show ('[' :: ((joinComma (printJsonList (x :: xs'))).data ++ [']']))
              ++ rest = _
          simp
        rw [hdata]
        have hitems := parse_printJsonItems (x :: xs') (by simp) hs f hfI rest
        obtain ⟨t0, ht0⟩ := joinComma_cons_data (printJson x)
          (printJsonList xs')
        have hlist : printJsonList (x :: xs')
            = printJson x :: printJsonList xs' := rfl
        obtain ⟨t1, hh⟩ := printJson_head x
        unfold parseVal
        rcases hh with hh | hh | hh <;>
          rw [hlist, ht0, hh] <;>
          rw [hlist, ht0, hh] at hitems <;>
          simp only [List.cons_append, List.append_assoc] at hitems <;>
          simp [hitems]
    | obj fs =>
      cases fs with
      | nil =>
        have hdata : (printJson (JsonVal.obj [])).data ++ rest
            = '\x7b' :: '\x7d' :: rest := rfl
        rw [hdata]
        unfold parseVal
        simp
      | cons f0 fs' =>
        have hfF : jsonFuelFields (f0 :: fs') ≤ f := by
          have : jsonFuel (JsonVal.obj (f0 :: fs'))
              = 1 + jsonFuelFields (f0 :: fs') := rfl
          omega
        have hdata : (printJson (JsonVal.obj (f0 :: fs'))).data ++ rest
            = '\x7b' :: ((joinComma (printJsonFields (f0 :: fs'))).data ++
                '\x7d' :: rest) := by
          show ('\x7b' ::
              ((joinComma (printJsonFields (f0 :: fs'))).data ++ ['\x7d']))
              ++ rest = _
          simp
        rw [hdata]
        have hflds := parse_printJsonFields (f0 :: fs') (by simp) hs f hfF rest
        obtain ⟨t0, ht0⟩ := joinComma_cons_data
          ("\"" ++ f0.1 ++ "\":" ++ printJson f0.2) (printJsonFields fs')
        have hlist : printJsonFields (f0 :: fs')
            = ("\"" ++ f0.1 ++ "\":" ++ printJson f0.2) ::
              printJsonFields fs' := rfl
        have hfd : ("\"" ++ f0.1 ++ "\":" ++ printJson f0.2).data
            = '"' :: ((f0.1.data ++ ['"', ':']) ++ (printJson f0.2).data) :=
          rfl
        unfold parseVal
        rw [hlist, ht0, hfd]
        rw [hlist, ht0, hfd] at hflds
        simp only [List.cons_append, List.append_assoc, List.nil_append]
          at hflds
        simp [hflds]

theorem parse_printJsonItems (xs : List JsonVal) (hne : xs ≠ [])
    (hs : jsonSafeList xs = true) :
    ∀ fuel, jsonFuelItems xs ≤ fuel → ∀ rest,
      parseItems fuel ((joinComma (printJsonList xs)).data ++ ']' :: rest)
        = some (xs, rest) := by
  intro fuel hfuel rest
  cases xs with
  | nil => exact absurd rfl hne
  | cons x xs' =>
    have hx : jsonSafe x = true ∧ jsonSafeList xs' = true := by
      have : jsonSafeList (x :: xs') = (jsonSafe x && jsonSafeList xs') := rfl
      rw [this, Bool.and_eq_true] at hs
      exact hs
    have hfuel' : 1 + jsonFuel x + jsonFuelItems xs' ≤ fuel := by
      have : jsonFuelItems (x :: xs')
          = 1 + jsonFuel x + jsonFuelItems xs' := rfl
      omega
    cases fuel with
    | zero => omega
    | succ f =>
      cases xs' with
      | nil =>
        have hdata : (joinComma (printJsonList [x])).data ++ ']' :: rest
            = (printJson x).data ++ ']' :: rest := rfl
        rw [hdata]
        unfold parseItems
        rw [parse_printJson x hx.1 f (by omega) (']' :: rest)]
        simp
      | cons y ys =>
        have hdata : (joinComma (printJsonList (x :: y :: ys))).data ++
              ']' :: rest
            = (printJson x).data ++
              ',' :: ((joinComma (printJsonList (y :: ys))).data ++
                ']' :: rest) := by
          show ((printJson x ++ ",") ++ joinComma (printJsonList (y :: ys))).data
              ++ ']' :: rest = _
          simp [data_append]
        rw [hdata]
        unfold parseItems
        rw [parse_printJson x hx.1 f (by omega)
          (',' :: ((joinComma (printJsonList (y :: ys))).data ++ ']' :: rest))]
        have hrec := parse_printJsonItems (y :: ys) (by simp) hx.2 f
          (by omega) rest
        simp [hrec]

theorem parse_printJsonFields (fs : List (String × JsonVal)) (hne : fs ≠ [])
    (hs : jsonSafeFields fs = true) :
    ∀ fuel, jsonFuelFields fs ≤ fuel → ∀ rest,
      parseFields fuel ((joinComma (printJsonFields fs)).data ++ '\x7d' :: rest)
        = some (fs, rest) := by
  intro fuel hfuel rest
  cases fs with
  | nil => exact absurd rfl hne
  | cons f0 fs' =>
    have hx : jsonSafeStr f0.1 = true ∧ jsonSafe f0.2 = true ∧
        jsonSafeFields fs' = true := by
      have : jsonSafeFields (f0 :: fs')
          = (jsonSafeStr f0.1 && jsonSafe f0.2 && jsonSafeFields fs') := rfl
      rw [this, Bool.and_eq_true, Bool.and_eq_true] at hs
      exact ⟨hs.1.1, hs.1.2, hs.2⟩
    have hfuel' : 1 + jsonFuel f0.2 + jsonFuelFields fs' ≤ fuel := by
      have : jsonFuelFields (f0 :: fs')
          = 1 + jsonFuel f0.2 + jsonFuelFields fs' := rfl
      omega
    cases fuel with
    | zero => omega
    | succ f =>
      cases fs' with
      | nil =>
        have hdata : (joinComma (printJsonFields [f0])).data ++ '\x7d' :: rest
            = '"' :: (f0.1.data ++
              '"' :: ':' :: ((printJson f0.2).data ++ '\x7d' :: rest)) := by
          show (("\"" ++ f0.1 ++ "\":" ++ printJson f0.2)).data ++ '\x7d' :: rest
              = _
          show ((('"' :: f0.1.data) ++ ['"', ':']) ++ (printJson f0.2).data)
              ++ '\x7d' :: rest = _
          simp
        rw [hdata]
        unfold parseFields
        simp [parseStrBody_safe f0.1.data hx.1,
          parse_printJson f0.2 hx.2.1 f (by omega)]
      | cons g gs =>
        have hdata : (joinComma (printJsonFields (f0 :: g :: gs))).data ++
              '\x7d' :: rest
            = '"' :: (f0.1.data ++
              '"' :: ':' :: ((printJson f0.2).data ++
                ',' :: ((joinComma (printJsonFields (g :: gs))).data ++
                  '\x7d' :: rest))) := by
          show ((("\"" ++ f0.1 ++ "\":" ++ printJson f0.2) ++ ",") ++
              joinComma (printJsonFields (g :: gs))).data ++ '\x7d' :: rest = _
          show ((((('"' :: f0.1.data) ++ ['"', ':']) ++ (printJson f0.2).data)
              ++ [',']) ++ (joinComma (printJsonFields (g :: gs))).data)
              ++ '\x7d' :: rest = _
          simp
        rw [hdata]
        unfold parseFields
        have hrec := parse_printJsonFields (g :: gs) (by simp) hx.2.2 f
          (by omega) rest
        simp [parseStrBody_safe f0.1.data hx.1,
          parse_printJson f0.2 hx.2.1 f (by omega), hrec]

end

mutual

theorem jsonFuel_le_len (v : JsonVal) :
    jsonFuel v ≤ (printJson v).data.length := by
  cases v with
  | str s =>
    have hlen : (printJson (JsonVal.str s)).data.length = s.data.length + 2 := by
      show ('"' :: (s.data ++ ['"'])).length = _
      simp
    simp only [jsonFuel]
    omega
  | arr xs =>
    have hlen : (printJson (JsonVal.arr xs)).data.length
        = (joinComma (printJsonList xs)).data.length + 2 := by
      show ('[' :: ((joinComma (printJsonList xs)).data ++ [']'])).length = _
      simp
    have h := jsonFuelItems_le xs
    simp only [jsonFuel]
    omega
  | obj fs =>
    have hlen : (printJson (JsonVal.obj fs)).data.length
        = (joinComma (printJsonFields fs)).data.length + 2 := by
      show ('\x7b' :: ((joinComma (printJsonFields fs)).data ++ ['\x7d'])).length
          = _
      simp
    have h := jsonFuelFields_le fs
    simp only [jsonFuel]
    omega

theorem jsonFuelItems_le (xs : List JsonVal) :
    jsonFuelItems xs ≤ (joinComma (printJsonList xs)).data.length + 1 := by
  cases xs with
  | nil => simp [jsonFuelItems]
  | cons x xs' =>
    cases xs' with
    | nil =>
      have hv := jsonFuel_le_len x
      have hlen : (joinComma (printJsonList [x])).data.length
          = (printJson x).data.length := rfl
      have hf : jsonFuelItems [x] = 1 + jsonFuel x + 0 := rfl
      omega
    | cons y ys =>
      have hv := jsonFuel_le_len x
      have hrec := jsonFuelItems_le (y :: ys)
      have hlen : (joinComma (printJsonList (x :: y :: ys))).data.length
          = (printJson x).data.length + 1 +
            (joinComma (printJsonList (y :: ys))).data.length := by
        show ((printJson x ++ ",") ++
          joinComma (printJsonList (y :: ys))).data.length = _
        simp [data_append]
        omega
      have hf : jsonFuelItems (x :: y :: ys)
          = 1 + jsonFuel x + jsonFuelItems (y :: ys) := rfl
      omega

theorem jsonFuelFields_le (fs : List (String × JsonVal)) :
    jsonFuelFields fs ≤ (joinComma (printJsonFields fs)).data.length + 1 := by
  cases fs with
  | nil => simp [jsonFuelFields]
  | cons f0 fs' =>
    have hfd : ("\"" ++ f0.1 ++ "\":" ++ printJson f0.2).data.length
        = f0.1.data.length + (printJson f0.2).data.length + 3 := by
      show ('"' :: ((f0.1.data ++ ['"', ':']) ++ (printJson f0.2).data)).length
          = _
      simp
      omega
    cases fs' with
    | nil =>
      have hv := jsonFuel_le_len f0.2
      have hlen : (joinComma (printJsonFields [f0])).data.length
          = ("\"" ++ f0.1 ++ "\":" ++ printJson f0.2).data.length := rfl
      have hf : jsonFuelFields [f0] = 1 + jsonFuel f0.2 + 0 := rfl
      omega
    | cons g gs =>
      have hv := jsonFuel_le_len f0.2
      have hrec := jsonFuelFields_le (g :: gs)
      have hlen : (joinComma (printJsonFields (f0 :: g :: gs))).data.length
          = ("\"" ++ f0.1 ++ "\":" ++ printJson f0.2).data.length + 1 +
            (joinComma (printJsonFields (g :: gs))).data.length := by
        show ((("\"" ++ f0.1 ++ "\":" ++ printJson f0.2) ++ ",") ++
          joinComma (printJsonFields (g :: gs))).data.length = _
        simp [data_append]
        omega
      have hf : jsonFuelFields (f0 :: g :: gs)
          = 1 + jsonFuel f0.2 + jsonFuelFields (g :: gs) := rfl
      omega

end

/-- The decoder reads back the raw-interpolated text of any json-safe value:
on safe strings the unescaped formatting parses to exactly the value it came
from. -/
theorem jsonLoads_printJson (v : JsonVal) (hs : jsonSafe v = true) :
    jsonLoads (printJson v) = some v := by
  have hlen : (printJson v).length = (printJson v).data.length := rfl
  have h := parse_printJson v hs ((printJson v).length + 1)
    (by rw [hlen]; exact Nat.le_succ_of_le (jsonFuel_le_len v)) []
  rw [List.append_nil] at h
  unfold jsonLoads
  rw [h]

theorem strAppend_assoc (a b c : String) : (a ++ b) ++ c = a ++ (b ++ c) :=
  congrArg String.mk (List.append_assoc a.data b.data c.data)

/-- An endpoint that the save text serializes as faithful json: a tag, or a
registered `RelationalEntity` instance.  A plain entity's raw string form is
not covered. -/
def nodeRentOrTag (n : Node) : Prop :=
  (∃ a, n = Node.tag a) ∨ ∃ cls data, n = Node.ent (Ent.rent cls data)

theorem endpointStr_eq (n : Node) (h : nodeRentOrTag n) :
    endpointStr n = printJson (reprJson (nodeToRepr n)) := by
  rcases h with ⟨a, rfl⟩ | ⟨cls, data, rfl⟩
  · rfl
  · rfl

theorem connStr_eq (c : Conn) (h1 : nodeRentOrTag c.source)
    (h2 : nodeRentOrTag c.target) :
    connStr c = printJson (connTripleJson (connToRepr c)) := by
  show "[" ++ endpointStr c.source ++ ",\"" ++ connTypeName c.type ++ "\"," ++
      endpointStr c.target ++ "]" = _
  rw [endpointStr_eq c.source h1, endpointStr_eq c.target h2]
  show _ = "[" ++ (printJson (reprJson (nodeToRepr c.source)) ++ "," ++
      ("\"" ++ connTypeName c.type ++ "\"" ++ "," ++
        printJson (reprJson (nodeToRepr c.target)))) ++ "]"
  have hs1 : ∀ X : String, ",\"" ++ X = "," ++ ("\"" ++ X) := fun X =>
    strAppend_assoc "," "\"" X
  have hs2 : ∀ X : String, "\"," ++ X = "\"" ++ ("," ++ X) := fun X =>
    strAppend_assoc "\"" "," X
  simp [strAppend_assoc, hs1, hs2]

theorem printJsonList_map (l : List JsonVal) :
    printJsonList l = l.map printJson := by
  induction l with
  | nil => rfl
  | cons x xs ih =>
    show printJson x :: printJsonList xs = _
    rw [ih]
    rfl

theorem tagStr_eq (p : String × List (Node × Conn))
    (h : ∀ q ∈ p.2, nodeRentOrTag q.2.source ∧ nodeRentOrTag q.2.target) :
    tagStr p
      = printJson (tagDictJson (p.1, p.2.map (fun q => connToRepr q.2))) := by
  have hinner : p.2.map (fun q => connStr q.2)
      = printJsonList ((p.2.map (fun q => connToRepr q.2)).map connTripleJson)
      := by
    rw [printJsonList_map, List.map_map, List.map_map]
    refine List.map_congr_left ?_
    intro q hq
    exact connStr_eq q.2 (h q hq).1 (h q hq).2
  show "\x7b\"" ++ p.1 ++ "\":[" ++
      joinComma (p.2.map (fun q => connStr q.2)) ++ "]\x7d" = _
  rw [hinner]
  show _ = "\x7b" ++ ("\"" ++ p.1 ++ "\":" ++
      ("[" ++ joinComma (printJsonList
        ((p.2.map (fun q => connToRepr q.2)).map connTripleJson)) ++ "]"))
      ++ "\x7d"
  have hs1 : ∀ X : String, "\x7b\"" ++ X = "\x7b" ++ ("\"" ++ X) := fun X =>
    strAppend_assoc "\x7b" "\"" X
  have hs2 : ∀ X : String, "\":[" ++ X = "\":" ++ ("[" ++ X) := fun X =>
    strAppend_assoc "\":" "[" X
  simp [strAppend_assoc, hs1, hs2]

theorem save_json_eq (r : Registry)
    (h : ∀ p ∈ r.all_tags, ∀ q ∈ p.2,
      nodeRentOrTag q.2.source ∧ nodeRentOrTag q.2.target) :
    save_json r = printJson (saveJsonValue r) := by
  have hinner : r.all_tags.map tagStr
      = printJsonList ((saveStruct r).map tagDictJson) := by
    rw [printJsonList_map]
    unfold saveStruct
    rw [List.map_map, List.map_map]
    refine List.map_congr_left ?_
    intro p hp
    exact tagStr_eq p (fun q hq => h p hp q hq)
  show "[" ++ joinComma (r.all_tags.map tagStr) ++ "]" = _
  rw [hinner]
  rfl

theorem strToConnType_name (ct : ConnType) :
    strToConnType (connTypeName ct) = some ct := by
  cases ct <;> rfl

/-- The serialized endpoint forms that parse back to themselves: everything
except the raw form of a plain entity. -/
def reprNotOther : NodeRepr → Bool
  | .other _ => false
  | _ => true

theorem reprNotOther_of_rentOrTag (n : Node) (h : nodeRentOrTag n) :
    reprNotOther (nodeToRepr n) = true := by
  rcases h with ⟨a, rfl⟩ | ⟨cls, data, rfl⟩
  · rfl
  · rfl

theorem jsonToRepr_reprJson (nr : NodeRepr) (h : reprNotOther nr = true) :
    jsonToRepr (reprJson nr) = nr := by
  cases nr with
  | name s => rfl
  | entJson cls data => rfl
  | other s => exact absurd h (by simp [reprNotOther])

theorem jsonToConnTriple_roundtrip (x : NodeRepr × ConnType × NodeRepr)
    (h1 : reprNotOther x.1 = true) (h2 : reprNotOther x.2.2 = true) :
    jsonToConnTriple (connTripleJson x) = some x := by
  obtain ⟨a, t, b⟩ := x
  show jsonToConnTriple
      (.arr [reprJson a, .str (connTypeName t), reprJson b]) = _
  unfold jsonToConnTriple
  simp [strToConnType_name, jsonToRepr_reprJson a h1,
    jsonToRepr_reprJson b h2]

theorem mapOpt_roundtrip (l : List (NodeRepr × ConnType × NodeRepr))
    (h : ∀ x ∈ l, reprNotOther x.1 = true ∧ reprNotOther x.2.2 = true) :
    mapOpt jsonToConnTriple (l.map connTripleJson) = some l := by
  induction l with
  | nil => rfl
  | cons x l ih =>
    have hx := h x (by simp)
    show mapOpt jsonToConnTriple
        (connTripleJson x :: l.map connTripleJson) = _
    unfold mapOpt
    rw [jsonToConnTriple_roundtrip x hx.1 hx.2,
      ih (fun y hy => h y (by simp [hy]))]

theorem jsonToTagDict_roundtrip (td : TagDict)
    (h : ∀ x ∈ td.2, reprNotOther x.1 = true ∧ reprNotOther x.2.2 = true) :
    jsonToTagDict (tagDictJson td) = some td := by
  show jsonToTagDict (.obj [(td.1, .arr (td.2.map connTripleJson))]) = _
  unfold jsonToTagDict
  simp [mapOpt_roundtrip td.2 h]

theorem alSet_self_of_alGet {α β : Type} [DecidableEq α]
    (l : List (α × β)) (k : α) (v : β) (h : alGet l k = some v) :
    alSet l k v = l := by
  induction l with
  | nil => simp [alGet] at h
  | cons p rest ih =>
    by_cases hp : p.1 = k
    · simp only [alGet, hp, if_true, Option.some.injEq] at h
      have hkv : (k, v) = p := by
        rw [Prod.ext_iff]
        exact ⟨hp.symm, h.symm⟩
      simp [alSet, hp, hkv]
    · simp only [alGet, hp, if_false] at h
      simp [alSet, hp, ih h]

/-- The list branch of `load` is the identity on the registry: it re-stores
each registered entry unchanged. -/
theorem load_list_id (names : List String) :
    ∀ r : Registry, load_list r names = r := by
  induction names with
  | nil => intro r; rfl
  | cons n rest ih =>
    intro r
    cases h : alGet r.all_tags n with
    | none =>
      have hstep : load_list r (n :: rest) = load_list r rest := by
        unfold load_list
        simp [h]
      rw [hstep, ih]
    | some conns =>
      have hr : ({ r with all_tags := alSet r.all_tags n conns } : Registry) = r := by
        have h2 := alSet_self_of_alGet r.all_tags n conns h
        cases r
        simp_all
      have hstep : load_list r (n :: rest) =
          load_list { r with all_tags := alSet r.all_tags n conns } rest := by
        unfold load_list
        simp [h]
      rw [hstep, hr, ih]

/-! ## Comparing registries entry by entry

The loaded registry agrees with the saved one on every lookup but may hold
its dict entries in a different order, so the comparison goes through
flattened entry lists and permutations. -/

theorem alGet_isSome_of_mem_keys {α β : Type} [DecidableEq α]
    (l : List (α × β)) (k : α) (h : k ∈ l.map Prod.fst) :
    (alGet l k).isSome = true := by
  induction l with
  | nil => simp at h
  | cons p rest ih =>
    by_cases hp : p.1 = k
    · simp [alGet, hp]
    · simp only [List.map_cons, List.mem_cons] at h
      rcases h with h | h
      · exact absurd h.symm hp
      · simp [alGet, hp, ih h]

/-- Lookup in a two-level dict. -/
def tableAt {κ κ2 v : Type} [DecidableEq κ] [DecidableEq κ2]
    (t : List (κ × List (κ2 × v))) (k : κ) (k2 : κ2) : Option v :=
  match alGet t k with
  | none => none
  | some l => alGet l k2

/-- All entries of a two-level dict as (outer key, inner key, value)
triples. -/
def flattenTable {κ κ2 v : Type} (t : List (κ × List (κ2 × v))) :
    List (κ × κ2 × v) :=
  t.flatMap (fun q => q.2.map (fun b => (q.1, b.1, b.2)))

theorem mem_flattenTable_iff {κ κ2 v : Type} [DecidableEq κ] [DecidableEq κ2]
    (t : List (κ × List (κ2 × v))) (houter : (t.map Prod.fst).Nodup)
    (hinner : ∀ q ∈ t, (q.2.map Prod.fst).Nodup) (k : κ) (k2 : κ2) (w : v) :
    (k, k2, w) ∈ flattenTable t ↔ tableAt t k k2 = some w := by
  constructor
  · intro h
    obtain ⟨q, hq, hmem⟩ := List.mem_flatMap.mp h
    obtain ⟨b, hb, hbeq⟩ := List.mem_map.mp hmem
    obtain ⟨hk, hk2, hw⟩ : q.1 = k ∧ b.1 = k2 ∧ b.2 = w := by
      injection hbeq with h1 h2
      injection h2 with h2 h3
      exact ⟨h1, h2, h3⟩
    have hget : alGet t k = some q.2 := by
      rw [← hk]
      exact alGet_eq_of_mem_nodup t q.1 q.2 houter (by simpa using hq)
    unfold tableAt
    rw [hget]
    rw [← hk2, ← hw]
    exact alGet_eq_of_mem_nodup q.2 b.1 b.2 (hinner q hq) (by simpa using hb)
  · intro h
    unfold tableAt at h
    cases hget : alGet t k with
    | none => rw [hget] at h; exact absurd h (by simp)
    | some l =>
      rw [hget] at h
      refine List.mem_flatMap.mpr ⟨(k, l), alGet_mem t k l hget, ?_⟩
      exact List.mem_map.mpr ⟨(k2, w), alGet_mem l k2 w h, rfl⟩

theorem flattenTable_nodup {κ κ2 v : Type} [DecidableEq κ] [DecidableEq κ2]
    (t : List (κ × List (κ2 × v))) (houter : (t.map Prod.fst).Nodup)
    (hinner : ∀ q ∈ t, (q.2.map Prod.fst).Nodup) :
    (flattenTable t).Nodup := by
  unfold flattenTable
  rw [List.nodup_flatMap]
  constructor
  · intro q hq
    have hqn : q.2.Nodup := (hinner q hq).of_map
    refine List.Nodup.map ?_ hqn
    intro b1 b2 hb
    have h1 : b1.1 = b2.1 := congrArg (fun x => x.2.1) hb
    have h2 : b1.2 = b2.2 := congrArg (fun x => x.2.2) hb
    exact Prod.ext h1 h2
  · have hpair : t.Pairwise (fun a b => a.1 ≠ b.1) := List.pairwise_map.mp houter
    refine hpair.imp ?_
    intro a b hab
    intro x hxa hxb
    obtain ⟨b1, _, hb1⟩ := List.mem_map.mp hxa
    obtain ⟨b2, _, hb2⟩ := List.mem_map.mp hxb
    apply hab
    rw [← hb2] at hb1
    injection hb1

theorem flattenTable_perm {κ κ2 v : Type} [DecidableEq κ] [DecidableEq κ2]
    [DecidableEq v] (t1 t2 : List (κ × List (κ2 × v)))
    (ho1 : (t1.map Prod.fst).Nodup) (hi1 : ∀ q ∈ t1, (q.2.map Prod.fst).Nodup)
    (ho2 : (t2.map Prod.fst).Nodup) (hi2 : ∀ q ∈ t2, (q.2.map Prod.fst).Nodup)
    (h : ∀ k k2, tableAt t1 k k2 = tableAt t2 k k2) :
    (flattenTable t1).Perm (flattenTable t2) := by
  refine List.perm_of_nodup_nodup_toFinset_eq
    (flattenTable_nodup t1 ho1 hi1) (flattenTable_nodup t2 ho2 hi2) ?_
  ext x
  obtain ⟨k, k2, w⟩ := x
  simp only [List.mem_toFinset]
  rw [mem_flattenTable_iff t1 ho1 hi1, mem_flattenTable_iff t2 ho2 hi2, h]

theorem keys_perm {α β : Type} [DecidableEq α] (t1 t2 : List (α × β))
    (h1 : (t1.map Prod.fst).Nodup) (h2 : (t2.map Prod.fst).Nodup)
    (h : ∀ k, (alGet t1 k).isSome = (alGet t2 k).isSome) :
    (t1.map Prod.fst).Perm (t2.map Prod.fst) := by
  refine List.perm_of_nodup_nodup_toFinset_eq h1 h2 ?_
  ext k
  simp only [List.mem_toFinset]
  constructor
  · intro hm
    have := alGet_isSome_of_mem_keys t1 k hm
    rw [h] at this
    exact mem_keys_of_alGet_isSome t2 k this
  · intro hm
    have := alGet_isSome_of_mem_keys t2 k hm
    rw [← h] at this
    exact mem_keys_of_alGet_isSome t1 k this

/-- Tag connections as a two-level lookup. -/
theorem tagConnAt_eq_tableAt (r : Registry) (n : String) (k : Node) :
    tagConnAt r n k = tableAt r.all_tags n k := by
  cases h : alGet r.all_tags n <;> simp [tagConnAt, tableAt, h]

/-- Bucket entries as a two-level lookup. -/
theorem bucketAt_eq_tableAt (r : Registry) (e : Ent) (nm : String) :
    bucketAt r e nm = tableAt r.tagged_entities e nm := by
  cases h : alGet r.tagged_entities e <;> simp [bucketAt, tableAt, h]

/-- Name normalization depends only on the case flag. -/
theorem normName_eq_of_flag (r R : Registry) (s : String)
    (h : R.is_case_sensitive = r.is_case_sensitive) :
    normName R s = normName r s := by
  unfold normName
  rw [h]

/-- Every tagged entity is an instance of a registered `RelationalEntity`
subclass: its identity carries a class name found in the class registry. -/
def EntsRegistered (r : Registry) (classes : List String) : Prop :=
  ∀ q ∈ r.tagged_entities, ∃ cls data, q.1 = Ent.rent cls data ∧ cls ∈ classes

/-- Invariant of the replay: the registry under construction agrees with the
saved registry `r` on every entry it already holds, and all its dict keys
are unique. -/
structure LoadInv (r R : Registry) : Prop where
  flag : R.is_case_sensitive = r.is_case_sensitive
  namesSub : ∀ n, (alGet R.all_tags n).isSome = true →
    (alGet r.all_tags n).isSome = true
  connsSub : ∀ n k c, tagConnAt R n k = some c → tagConnAt r n k = some c
  entsSub : ∀ e, (alGet R.tagged_entities e).isSome = true →
    (alGet r.tagged_entities e).isSome = true
  bucketsSub : ∀ e nm c, bucketAt R e nm = some c → bucketAt r e nm = some c
  namesNodup : (R.all_tags.map Prod.fst).Nodup
  connsNodup : ∀ p ∈ R.all_tags, (p.2.map Prod.fst).Nodup
  entsNodup : (R.tagged_entities.map Prod.fst).Nodup
  bucketsNodup : ∀ q ∈ R.tagged_entities, (q.2.map Prod.fst).Nodup

/-- Monotone growth of a registry during replay: everything present stays
present. -/
def RegLE (R R' : Registry) : Prop :=
  (∀ n, (alGet R.all_tags n).isSome = true →
    (alGet R'.all_tags n).isSome = true) ∧
  (∀ n k, (tagConnAt R n k).isSome = true → (tagConnAt R' n k).isSome = true) ∧
  (∀ e nm, (bucketAt R e nm).isSome = true → (bucketAt R' e nm).isSome = true)

theorem RegLE.refl (R : Registry) : RegLE R R :=
  ⟨fun _ h => h, fun _ _ h => h, fun _ _ h => h⟩

theorem RegLE.trans {R1 R2 R3 : Registry} (h1 : RegLE R1 R2) (h2 : RegLE R2 R3) :
    RegLE R1 R3 :=
  ⟨fun n h => h2.1 n (h1.1 n h), fun n k h => h2.2.1 n k (h1.2.1 n k h),
    fun e nm h => h2.2.2 e nm (h1.2.2 e nm h)⟩

theorem keys_alSet_of_none {α β : Type} [DecidableEq α]
    (l : List (α × β)) (a : α) (b : β) (h : alGet l a = none) :
    (alSet l a b).map Prod.fst = l.map Prod.fst ++ [a] := by
  induction l with
  | nil => simp [alSet]
  | cons p rest ih =>
    by_cases hp : p.1 = a
    · simp [alGet, hp] at h
    · simp only [alGet, hp, if_false] at h
      simp [alSet, hp, ih h]

theorem keys_alSet_nodup {α β : Type} [DecidableEq α]
    (l : List (α × β)) (a : α) (b : β) (h : (l.map Prod.fst).Nodup) :
    ((alSet l a b).map Prod.fst).Nodup := by
  cases hget : alGet l a with
  | some v =>
    rw [keys_alSet_of_isSome l a b (by simp [hget])]
    exact h
  | none =>
    rw [keys_alSet_of_none l a b hget]
    rw [List.nodup_append]
    refine ⟨h, List.nodup_singleton a, ?_⟩
    intro x hx
    simp only [List.mem_singleton]
    intro heq
    subst heq
    have := alGet_isSome_of_mem_keys l x hx
    rw [hget] at this
    exact absurd this (by simp)

theorem mem_alSet_cases {α β : Type} [DecidableEq α]
    (l : List (α × β)) (a : α) (b : β) (p : α × β) (hmem : p ∈ alSet l a b) :
    p = (a, b) ∨ p ∈ l := by
  induction l with
  | nil =>
    simp [alSet] at hmem
    exact Or.inl hmem
  | cons q rest ih =>
    by_cases hq : q.1 = a
    · simp only [alSet, hq, if_true] at hmem
      rcases List.mem_cons.mp hmem with h | h
      · left
        rw [h]
      · right
        exact List.mem_cons_of_mem q h
    · simp only [alSet, hq, if_false] at hmem
      rcases List.mem_cons.mp hmem with h | h
      · right
        subst h
        exact List.mem_cons_self q rest
      · rcases ih h with h2 | h2
        · exact Or.inl h2
        · exact Or.inr (List.mem_cons_of_mem q h2)

/-- Running `new` with `get_if_exists` on a normalization-fixed name: return
the existing tag, or register a fresh one with no connections. -/
theorem rtNew_run (R : Registry) (n : String) (hnorm : normName R n = n) :
    rtNew R n true = .ok ((if (alGet R.all_tags n).isSome = true then R
      else { R with all_tags := R.all_tags ++ [(n, [])] }), n) := by
  by_cases h : (alGet R.all_tags n).isSome = true
  · simp [rtNew, newTagRaw, hnorm, h]
  · simp [rtNew, newTagRaw, hnorm, h]

/-- Running `get` with `new_if_missing` on a normalization-fixed name has
the same result. -/
theorem rtGet_run (R : Registry) (n : String) (hnorm : normName R n = n) :
    rtGet R n true = .ok ((if (alGet R.all_tags n).isSome = true then R
      else { R with all_tags := R.all_tags ++ [(n, [])] }), n) := by
  cases hget : alGet R.all_tags n with
  | some conns => simp [rtGet, newTagRaw, hnorm, hget]
  | none => simp [rtGet, newTagRaw, hnorm, hget]

/-- Registering a fresh tag that exists in the saved registry preserves the
replay invariant. -/
theorem inv_append_tag (r R : Registry) (n : String) (hInv : LoadInv r R)
    (hrn : (alGet r.all_tags n).isSome = true)
    (habs : alGet R.all_tags n = none) :
    LoadInv r { R with all_tags := R.all_tags ++ [(n, [])] } ∧
    RegLE R { R with all_tags := R.all_tags ++ [(n, [])] } := by
  have hlook : ∀ m, alGet (R.all_tags ++ [(n, [])]) m =
      if n = m then some [] else alGet R.all_tags m := by
    intro m
    by_cases hm : n = m
    · subst hm
      simp [alGet_append_single_self _ _ _ habs]
    · simp [hm, alGet_append_single_ne _ _ _ _ hm]
  have hconn : ∀ m k, tagConnAt { R with all_tags := R.all_tags ++ [(n, [])] } m k =
      if n = m then none else tagConnAt R m k := by
    intro m k
    unfold tagConnAt
    rw [show ({ R with all_tags := R.all_tags ++ [(n, [])] } : Registry).all_tags =
      R.all_tags ++ [(n, [])] from rfl, hlook m]
    by_cases hm : n = m
    · simp [hm, alGet]
    · simp [hm]
  constructor
  · refine ⟨hInv.flag, ?_, ?_, hInv.entsSub, hInv.bucketsSub, ?_, ?_,
      hInv.entsNodup, hInv.bucketsNodup⟩
    · intro m hm
      rw [show ({ R with all_tags := R.all_tags ++ [(n, [])] } : Registry).all_tags =
        R.all_tags ++ [(n, [])] from rfl, hlook m] at hm
      by_cases hnm : n = m
      · subst hnm
        exact hrn
      · rw [if_neg hnm] at hm
        exact hInv.namesSub m hm
    · intro m k c hc
      rw [hconn m k] at hc
      by_cases hnm : n = m
      · rw [if_pos hnm] at hc
        exact absurd hc (by simp)
      · rw [if_neg hnm] at hc
        exact hInv.connsSub m k c hc
    · rw [show ({ R with all_tags := R.all_tags ++ [(n, [])] } : Registry).all_tags =
        R.all_tags ++ [(n, [])] from rfl, List.map_append]
      rw [List.nodup_append]
      refine ⟨hInv.namesNodup, by simp, ?_⟩
      intro x hx
      simp only [List.map_cons, List.map_nil, List.mem_singleton]
      intro heq
      subst heq
      have := alGet_isSome_of_mem_keys R.all_tags x hx
      rw [habs] at this
      exact absurd this (by simp)
    · intro p hp
      rw [show ({ R with all_tags := R.all_tags ++ [(n, [])] } : Registry).all_tags =
        R.all_tags ++ [(n, [])] from rfl] at hp
      rcases List.mem_append.mp hp with h | h
      · exact hInv.connsNodup p h
      · simp only [List.mem_singleton] at h
        subst h
        simp
  · refine ⟨?_, ?_, fun e nm h => h⟩
    · intro m hm
      rw [show ({ R with all_tags := R.all_tags ++ [(n, [])] } : Registry).all_tags =
        R.all_tags ++ [(n, [])] from rfl, hlook m]
      by_cases hnm : n = m
      · simp [hnm]
      · rw [if_neg hnm]
        exact hm
    · intro m k hm
      rw [hconn m k]
      by_cases hnm : n = m
      · subst hnm
        unfold tagConnAt at hm
        rw [habs] at hm
        exact absurd hm (by simp)
      · rw [if_neg hnm]
        exact hm

/-- Writing a connection that the saved registry holds into a live tag's
dict preserves the replay invariant. -/
theorem inv_setTagConn (r R : Registry) (n : String) (k : Node) (c : Conn)
    (hInv : LoadInv r R) (hn : (alGet R.all_tags n).isSome = true)
    (hrc : tagConnAt r n k = some c) :
    LoadInv r (setTagConn R n k c) ∧ RegLE R (setTagConn R n k c) ∧
    tagConnAt (setTagConn R n k c) n k = some c := by
  obtain ⟨conns, hconns⟩ := Option.isSome_iff_exists.mp hn
  have hflag : (setTagConn R n k c).is_case_sensitive = R.is_case_sensitive :=
    setTagConn_case R n k c
  have hself := tagConnAt_setTagConn_self R n k c hn
  refine ⟨⟨?_, ?_, ?_, ?_, ?_, ?_, ?_, ?_, ?_⟩, ⟨?_, ?_, ?_⟩, hself⟩
  · rw [hflag]
    exact hInv.flag
  · intro m hm
    rw [isSome_alGet_setTagConn] at hm
    exact hInv.namesSub m hm
  · intro m k' c' hc'
    by_cases hnm : n = m
    · subst hnm
      by_cases hkk : k = k'
      · subst hkk
        rw [hself] at hc'
        injection hc' with hc'
        rw [← hc']
        exact hrc
      · rw [tagConnAt_setTagConn_ne_key R n k k' c hkk] at hc'
        exact hInv.connsSub n k' c' hc'
    · rw [tagConnAt_setTagConn_ne_name R n m k k' c hnm] at hc'
      exact hInv.connsSub m k' c' hc'
  · intro e he
    rw [show (setTagConn R n k c).tagged_entities = R.tagged_entities from
      setTagConn_tagged_entities R n k c] at he
    exact hInv.entsSub e he
  · intro e nm c' hc'
    rw [bucketAt_setTagConn] at hc'
    exact hInv.bucketsSub e nm c' hc'
  · rw [show (setTagConn R n k c).all_tags =
      alSet R.all_tags n (alSet conns k c) from by
        unfold setTagConn
        simp [hconns]]
    exact keys_alSet_nodup _ _ _ hInv.namesNodup
  · intro p hp
    rw [show (setTagConn R n k c).all_tags =
      alSet R.all_tags n (alSet conns k c) from by
        unfold setTagConn
        simp [hconns]] at hp
    rcases mem_alSet_cases _ _ _ p hp with h | h
    · subst h
      exact keys_alSet_nodup _ _ _
        (hInv.connsNodup (n, conns) (alGet_mem _ _ _ hconns))
    · exact hInv.connsNodup p h
  · rw [show (setTagConn R n k c).tagged_entities = R.tagged_entities from
      setTagConn_tagged_entities R n k c]
    exact hInv.entsNodup
  · intro q hq
    rw [show (setTagConn R n k c).tagged_entities = R.tagged_entities from
      setTagConn_tagged_entities R n k c] at hq
    exact hInv.bucketsNodup q hq
  · intro m hm
    rw [isSome_alGet_setTagConn]
    exact hm
  · intro m k' hm
    by_cases hnm : n = m
    · subst hnm
      by_cases hkk : k = k'
      · subst hkk
        simp [hself]
      · rw [tagConnAt_setTagConn_ne_key R n k k' c hkk]
        exact hm
    · rw [tagConnAt_setTagConn_ne_name R n m k k' c hnm]
      exact hm
  · intro e nm hm
    rw [bucketAt_setTagConn]
    exact hm

/-- The reverse-index update performed by `connect` for an entity target:
write the inverse connection into the entity's bucket, creating the bucket
if absent. -/
def bucketWrite (R : Registry) (e : Ent) (nm : String) (invc : Conn) : Registry :=
  match alGet R.tagged_entities e with
  | some bucket =>
    { R with tagged_entities := alSet R.tagged_entities e (alSet bucket nm invc) }
  | none =>
    { R with tagged_entities :=
        alSet (R.tagged_entities ++ [(e, [])]) e [(nm, invc)] }

theorem bucketWrite_all_tags (R : Registry) (e : Ent) (nm : String) (invc : Conn) :
    (bucketWrite R e nm invc).all_tags = R.all_tags := by
  unfold bucketWrite
  cases alGet R.tagged_entities e <;> rfl

theorem bucketWrite_case (R : Registry) (e : Ent) (nm : String) (invc : Conn) :
    (bucketWrite R e nm invc).is_case_sensitive = R.is_case_sensitive := by
  unfold bucketWrite
  cases alGet R.tagged_entities e <;> rfl

/-- The entity branch of `connect` in terms of `bucketWrite`. -/
theorem connectNode_tag_ent_run (R : Registry) (n : String) (e : Ent) :
    connectNode R (.tag n) (.ent e) (some .toEnt) =
      .ok (bucketWrite (setTagConn R n (.ent e) ⟨.tag n, .ent e, .toEnt⟩) e n
        ⟨.ent e, .tag n, .entToTag⟩, ⟨.tag n, .ent e, .toEnt⟩) := by
  cases hbk : alGet R.tagged_entities e with
  | some bucket =>
    rw [connectNode_tag_ent_some R n e bucket hbk]
    unfold bucketWrite
    rw [show (setTagConn R n (.ent e)
        ⟨.tag n, .ent e, .toEnt⟩).tagged_entities = R.tagged_entities from
      setTagConn_tagged_entities R n _ _, hbk]
  | none =>
    rw [connectNode_tag_ent_none R n e hbk]
    unfold bucketWrite
    rw [show (setTagConn R n (.ent e)
        ⟨.tag n, .ent e, .toEnt⟩).tagged_entities = R.tagged_entities from
      setTagConn_tagged_entities R n _ _, hbk]

/-- Lookup after a bucket write. -/
theorem bucketAt_bucketWrite (R : Registry) (e : Ent) (nm : String) (invc : Conn)
    (e' : Ent) (nm' : String) :
    bucketAt (bucketWrite R e nm invc) e' nm' =
      if e = e' then (if nm = nm' then some invc else bucketAt R e' nm')
      else bucketAt R e' nm' := by
  unfold bucketWrite bucketAt
  cases hbk : alGet R.tagged_entities e with
  | some bucket =>
    by_cases hee : e = e'
    · subst hee
      simp only [alGet_alSet_self, if_pos rfl, hbk]
      by_cases hnn : nm = nm'
      · subst hnn
        simp [alGet_alSet_self]
      · simp [hnn, alGet_alSet_ne _ _ _ _ hnn]
    · simp [hee, alGet_alSet_ne _ _ _ _ hee]
  | none =>
    by_cases hee : e = e'
    · subst hee
      simp only [alGet_alSet_self, if_pos rfl, hbk]
      by_cases hnn : nm = nm'
      · subst hnn
        simp [alGet]
      · simp [hnn, alGet, hnn]
    · rw [if_neg hee]
      rw [show alGet (alSet (R.tagged_entities ++ [(e, [])]) e [(nm, invc)]) e' =
        alGet (R.tagged_entities ++ [(e, [])]) e' from
          alGet_alSet_ne _ _ _ _ hee,
        alGet_append_single_ne _ _ _ _ hee]

/-- Key presence after a bucket write. -/
theorem isSome_tagged_bucketWrite (R : Registry) (e : Ent) (nm : String)
    (invc : Conn) (e' : Ent) :
    (alGet (bucketWrite R e nm invc).tagged_entities e').isSome =
      ((alGet R.tagged_entities e').isSome || (e = e')) := by
  unfold bucketWrite
  cases hbk : alGet R.tagged_entities e with
  | some bucket =>
    by_cases hee : e = e'
    · subst hee
      simp [alGet_alSet_self, hbk]
    · simp [hee, alGet_alSet_ne _ _ _ _ hee]
  | none =>
    by_cases hee : e = e'
    · subst hee
      simp [alGet_alSet_self, hbk]
    · rw [show alGet (alSet (R.tagged_entities ++ [(e, [])]) e [(nm, invc)]) e' =
        alGet (R.tagged_entities ++ [(e, [])]) e' from
          alGet_alSet_ne _ _ _ _ hee,
        alGet_append_single_ne _ _ _ _ hee]
      simp [hee]

/-- Writing into a bucket the inverse entry that the saved registry holds
preserves the replay invariant. -/
theorem inv_bucketWrite (r R : Registry) (e : Ent) (nm : String) (invc : Conn)
    (hInv : LoadInv r R) (hre : bucketAt r e nm = some invc) :
    LoadInv r (bucketWrite R e nm invc) ∧ RegLE R (bucketWrite R e nm invc) ∧
    bucketAt (bucketWrite R e nm invc) e nm = some invc := by
  have hrekey : (alGet r.tagged_entities e).isSome = true := by
    obtain ⟨bucket, hb, _⟩ := (bucketAt_some_iff r e nm invc).mp hre
    simp [hb]
  have hat : (bucketWrite R e nm invc).all_tags = R.all_tags :=
    bucketWrite_all_tags R e nm invc
  have hconnEq : ∀ m k, tagConnAt (bucketWrite R e nm invc) m k = tagConnAt R m k := by
    intro m k
    unfold tagConnAt
    rw [hat]
  refine ⟨⟨?_, ?_, ?_, ?_, ?_, ?_, ?_, ?_, ?_⟩, ⟨?_, ?_, ?_⟩, ?_⟩
  · rw [bucketWrite_case]
    exact hInv.flag
  · intro m hm
    rw [hat] at hm
    exact hInv.namesSub m hm
  · intro m k c hc
    rw [hconnEq] at hc
    exact hInv.connsSub m k c hc
  · intro e' he'
    rw [isSome_tagged_bucketWrite] at he'
    rcases Bool.or_eq_true_iff.mp he' with h | h
    · exact hInv.entsSub e' h
    · have : e = e' := by simpa using h
      subst this
      exact hrekey
  · intro e' nm' c' hc'
    rw [bucketAt_bucketWrite] at hc'
    by_cases hee : e = e'
    · rw [if_pos hee] at hc'
      by_cases hnn : nm = nm'
      · rw [if_pos hnn] at hc'
        injection hc' with hc'
        subst hee; subst hnn
        rw [← hc']
        exact hre
      · rw [if_neg hnn] at hc'
        exact hInv.bucketsSub e' nm' c' hc'
    · rw [if_neg hee] at hc'
      exact hInv.bucketsSub e' nm' c' hc'
  · rw [hat]
    exact hInv.namesNodup
  · intro p hp
    rw [hat] at hp
    exact hInv.connsNodup p hp
  · unfold bucketWrite
    cases hbk : alGet R.tagged_entities e with
    | some bucket =>
      exact keys_alSet_nodup _ _ _ hInv.entsNodup
    | none =>
      have hkeys : ((R.tagged_entities ++ [(e, [])]).map Prod.fst).Nodup := by
        rw [List.map_append, List.nodup_append]
        refine ⟨hInv.entsNodup, by simp, ?_⟩
        intro x hx
        simp only [List.map_cons, List.map_nil, List.mem_singleton]
        intro heq
        subst heq
        have := alGet_isSome_of_mem_keys R.tagged_entities x hx
        rw [hbk] at this
        exact absurd this (by simp)
      exact keys_alSet_nodup _ _ _ hkeys
  · intro q hq
    unfold bucketWrite at hq
    cases hbk : alGet R.tagged_entities e with
    | some bucket =>
      rw [hbk] at hq
      simp only at hq
      rcases mem_alSet_cases _ _ _ q hq with h | h
      · subst h
        exact keys_alSet_nodup _ _ _
          (hInv.bucketsNodup (e, bucket) (alGet_mem _ _ _ hbk))
      · exact hInv.bucketsNodup q h
    | none =>
      rw [hbk] at hq
      simp only at hq
      rcases mem_alSet_cases _ _ _ q hq with h | h
      · subst h
        simp
      · rcases List.mem_append.mp h with h2 | h2
        · exact hInv.bucketsNodup q h2
        · simp only [List.mem_singleton] at h2
          subst h2
          simp
  · intro m hm
    rw [hat]
    exact hm
  · intro m k hm
    rw [hconnEq]
    exact hm
  · intro e' nm' hm
    rw [bucketAt_bucketWrite]
    by_cases hee : e = e'
    · rw [if_pos hee]
      by_cases hnn : nm = nm'
      · simp [hnn]
      · rw [if_neg hnn]
        exact hm
    · rw [if_neg hee]
      exact hm
  · rw [bucketAt_bucketWrite]
    simp

/-- Replaying a tag-tag connection that the saved registry holds (in both
directions) preserves the replay invariant and makes the forward entry
present. -/
theorem inv_connect_tag_tag (r R : Registry) (a b : String) (t : ConnType)
    (hInv : LoadInv r R) (ht : t.isTagTag = true)
    (ha : (alGet R.all_tags a).isSome = true)
    (hb : (alGet R.all_tags b).isSome = true)
    (hra : tagConnAt r a (.tag b) = some ⟨.tag a, .tag b, t⟩)
    (hrb : tagConnAt r b (.tag a) = some ⟨.tag b, .tag a, inverse_type t⟩) :
    ∃ R', connect R (.node (.tag a)) (some (.tag b)) (some t) =
        .ok (R', ⟨.tag a, .tag b, t⟩) ∧
      LoadInv r R' ∧ RegLE R R' ∧ (tagConnAt R' a (.tag b)).isSome = true := by
  obtain ⟨hInv1, hLE1, hself1⟩ :=
    inv_setTagConn r R a (.tag b) ⟨.tag a, .tag b, t⟩ hInv ha hra
  obtain ⟨hInv2, hLE2, hself2⟩ :=
    inv_setTagConn r (setTagConn R a (.tag b) ⟨.tag a, .tag b, t⟩) b (.tag a)
      ⟨.tag b, .tag a, inverse_type t⟩ hInv1 (hLE1.1 b hb) hrb
  refine ⟨_, ?_, hInv2, hLE1.trans hLE2, ?_⟩
  · rw [show connect R (.node (.tag a)) (some (.tag b)) (some t) =
      connectNode R (.tag a) (.tag b) (some t) from rfl]
    exact connectNode_tag_tag R a b t ht
  · exact hLE2.2.1 a (.tag b) (by simp [hself1])

/-- Replaying a tag-entity connection that the saved registry holds (with
its reverse-index entry) preserves the replay invariant and makes both the
forward entry and the bucket entry present. -/
theorem inv_connect_tag_ent (r R : Registry) (n : String) (e : Ent)
    (hInv : LoadInv r R) (hn : (alGet R.all_tags n).isSome = true)
    (hrc : tagConnAt r n (.ent e) = some ⟨.tag n, .ent e, .toEnt⟩)
    (hre : bucketAt r e n = some ⟨.ent e, .tag n, .entToTag⟩) :
    ∃ R', connect R (.node (.tag n)) (some (.ent e)) (some .toEnt) =
        .ok (R', ⟨.tag n, .ent e, .toEnt⟩) ∧
      LoadInv r R' ∧ RegLE R R' ∧ (tagConnAt R' n (.ent e)).isSome = true ∧
      (bucketAt R' e n).isSome = true := by
  obtain ⟨hInv1, hLE1, hself1⟩ :=
    inv_setTagConn r R n (.ent e) ⟨.tag n, .ent e, .toEnt⟩ hInv hn hrc
  obtain ⟨hInv2, hLE2, hself2⟩ :=
    inv_bucketWrite r (setTagConn R n (.ent e) ⟨.tag n, .ent e, .toEnt⟩) e n
      ⟨.ent e, .tag n, .entToTag⟩ hInv1 hre
  refine ⟨_, ?_, hInv2, hLE1.trans hLE2, ?_, by simp [hself2]⟩
  · rw [show connect R (.node (.tag n)) (some (.ent e)) (some .toEnt) =
      connectNode R (.tag n) (.ent e) (some .toEnt) from rfl]
    exact connectNode_tag_ent_run R n e
  · exact hLE2.2.1 n (.ent e) (by simp [hself1])

/-- Replaying the serialized connection list of one saved tag: every replayed
entry becomes present, the invariant is kept, and nothing is lost. -/
theorem loadConns_run (r : Registry) (classes : List String) (hWF : WFReg r)
    (hents : EntsRegistered r classes) (n : String)
    (conns_r : List (Node × Conn)) (hn : alGet r.all_tags n = some conns_r) :
    ∀ cl : List (Node × Conn), (∀ q ∈ cl, q ∈ conns_r) →
    ∀ R, LoadInv r R → (alGet R.all_tags n).isSome = true →
    ∃ R', loadConns classes false n R (cl.map (fun q => connToRepr q.2)) = .ok R' ∧
      LoadInv r R' ∧ RegLE R R' ∧
      (∀ q ∈ cl, (tagConnAt R' n q.1).isSome = true ∧
        (∀ e, q.1 = .ent e → (bucketAt R' e n).isSome = true)) := by
  have hTagWF := hWF.tagsWF (n, conns_r) (alGet_mem _ _ _ hn)
  intro cl
  induction cl with
  | nil =>
    intro _ R hInv _
    exact ⟨R, rfl, hInv, RegLE.refl R, by simp⟩
  | cons q rest ih =>
    intro hsub R hInv hnR
    obtain ⟨k, c⟩ := q
    have hq_mem : (k, c) ∈ conns_r := hsub (k, c) (by simp)
    have hce := hTagWF.2.2 (k, c) hq_mem
    obtain ⟨cs, ct, cty⟩ := c
    have hsrc : cs = Node.tag n := hce.1
    have htgt : ct = k := hce.2.1
    subst hsrc; subst htgt
    have hget_c : alGet conns_r ct = some ⟨Node.tag n, ct, cty⟩ :=
      alGet_eq_of_mem_nodup conns_r ct _ hTagWF.1 hq_mem
    have hra : tagConnAt r n ct = some ⟨Node.tag n, ct, cty⟩ := by
      rw [(tagConnAt_some_iff r n ct _)]
      exact ⟨conns_r, hn, hget_c⟩
    cases ct with
    | tag b =>
      have htt : cty.isTagTag = true := hce.2.2.1
      have hinv_r : tagConnAt r b (.tag n) =
          some ⟨.tag b, .tag n, inverse_type cty⟩ := hce.2.2.2
      obtain ⟨bconns, hb_r, _⟩ := (tagConnAt_some_iff r b (.tag n) _).mp hinv_r
      have hnorm_b_r : normName r b = b :=
        (hWF.tagsWF (b, bconns) (alGet_mem _ _ _ hb_r)).2.1
      have hnorm_b : normName R b = b := by
        rw [normName_eq_of_flag r R b hInv.flag]
        exact hnorm_b_r
      have hb_r_some : (alGet r.all_tags b).isSome = true := by simp [hb_r]
      obtain ⟨R1, hR1get, hInv1, hLE01, hbR1⟩ :
          ∃ R1, rtGet R b true = .ok (R1, b) ∧ LoadInv r R1 ∧ RegLE R R1 ∧
            (alGet R1.all_tags b).isSome = true := by
        by_cases hbR : (alGet R.all_tags b).isSome = true
        · refine ⟨R, ?_, hInv, RegLE.refl R, hbR⟩
          rw [rtGet_run R b hnorm_b, if_pos hbR]
        · have habs : alGet R.all_tags b = none := by
            cases h : alGet R.all_tags b with
            | none => rfl
            | some v => rw [h] at hbR; exact absurd (by simp) hbR
          obtain ⟨hInvA, hLEA⟩ := inv_append_tag r R b hInv hb_r_some habs
          refine ⟨_, ?_, hInvA, hLEA, ?_⟩
          · rw [rtGet_run R b hnorm_b, if_neg hbR]
          · rw [show ({ R with all_tags := R.all_tags ++ [(b, [])] } :
              Registry).all_tags = R.all_tags ++ [(b, [])] from rfl,
              alGet_append_single_self _ _ _ habs]
            rfl
      obtain ⟨R2, hconnEq, hInv2, hLE12, hfwd2⟩ :=
        inv_connect_tag_tag r R1 n b cty hInv1 htt (hLE01.1 n hnR) hbR1 hra hinv_r
      obtain ⟨R', hrun, hInv', hLE2, hcompl⟩ :=
        ih (fun p hp => hsub p (by simp [hp])) R2 hInv2
          (hLE12.1 n (hLE01.1 n hnR))
      refine ⟨R', ?_, hInv', (hLE01.trans hLE12).trans hLE2, ?_⟩
      · rw [show (((Node.tag b, ⟨Node.tag n, Node.tag b, cty⟩) :: rest).map
            (fun q => connToRepr q.2) : List (NodeRepr × ConnType × NodeRepr)) =
          connToRepr ⟨Node.tag n, Node.tag b, cty⟩ ::
            rest.map (fun q => connToRepr q.2) from by simp]
        unfold loadConns
        simp only [connToRepr, nodeToRepr, htt, if_true, hR1get, hconnEq]
        exact hrun
      · intro p hp
        rcases List.mem_cons.mp hp with h | h
        · rw [h]
        
          refine ⟨hLE2.2.1 n (.tag b) hfwd2, ?_⟩
          intro e he
          exact absurd he (by simp)
        · exact hcompl p h
    | ent e =>
      have hty : cty = ConnType.toEnt := hce.2.2.1
      subst hty
      have hreE : bucketAt r e n = some ⟨.ent e, .tag n, .entToTag⟩ := hce.2.2.2
      obtain ⟨bucket, hbkt, _⟩ := (bucketAt_some_iff r e n _).mp hreE
      obtain ⟨cls, data, hecls, hclsmem⟩ :=
        hents (e, bucket) (alGet_mem _ _ _ hbkt)
      obtain ⟨R2, hconnEq, hInv2, hLE12, hfwd2, hbk2⟩ :=
        inv_connect_tag_ent r R n e hInv hnR hra hreE
      obtain ⟨R', hrun, hInv', hLE2, hcompl⟩ :=
        ih (fun p hp => hsub p (by simp [hp])) R2 hInv2 (hLE12.1 n hnR)
      refine ⟨R', ?_, hInv', hLE12.trans hLE2, ?_⟩
      · rw [show (((Node.ent e, ⟨Node.tag n, Node.ent e, ConnType.toEnt⟩) ::
            rest).map (fun q => connToRepr q.2) :
              List (NodeRepr × ConnType × NodeRepr)) =
          connToRepr ⟨Node.tag n, Node.ent e, ConnType.toEnt⟩ ::
            rest.map (fun q => connToRepr q.2) from by simp]
        unfold loadConns
        rw [show connToRepr ⟨Node.tag n, Node.ent e, ConnType.toEnt⟩ =
          (NodeRepr.name n, ConnType.toEnt, entToRepr e) from rfl]
        subst hecls
        simp only [entToRepr, ConnType.isTagTag, Bool.false_eq_true, if_false,
          hclsmem, if_pos, hconnEq]
        exact hrun
      · intro p hp
        rcases List.mem_cons.mp hp with h | h
        · rw [h]
          refine ⟨hLE2.2.1 n (.ent e) hfwd2, ?_⟩
          intro e2 he2
          have he2e : e = e2 := by injection he2
          rw [← he2e]
          exact hLE2.2.2 e n hbk2
        · exact hcompl p h

/-- All of one saved tag's content is present in the replayed registry: the
tag itself, each of its stored connections, and the reverse-index entry of
each of its entity connections. -/
def TagComplete (r R : Registry) (n : String) : Prop :=
  (alGet R.all_tags n).isSome = true ∧
  ∀ k c, tagConnAt r n k = some c → (tagConnAt R n k).isSome = true ∧
    (∀ e, k = .ent e → (bucketAt R e n).isSome = true)

theorem TagComplete.mono {r R R' : Registry} {n : String}
    (h : TagComplete r R n) (hle : RegLE R R') : TagComplete r R' n := by
  refine ⟨hle.1 n h.1, ?_⟩
  intro k c hc
  obtain ⟨h1, h2⟩ := h.2 k c hc
  exact ⟨hle.2.1 n k h1, fun e he => hle.2.2 e n (h2 e he)⟩

/-- Replaying one saved tag dict with `load_tag`. -/
theorem load_tag_run (r : Registry) (classes : List String) (hWF : WFReg r)
    (hents : EntsRegistered r classes) (n : String)
    (conns_r : List (Node × Conn)) (hn : alGet r.all_tags n = some conns_r) :
    ∀ R, LoadInv r R →
    ∃ R', load_tag classes R (n, conns_r.map (fun q => connToRepr q.2))
        true false = .ok (R', n) ∧
      LoadInv r R' ∧ RegLE R R' ∧ TagComplete r R' n := by
  intro R hInv
  have hnmem : (n, conns_r) ∈ r.all_tags := alGet_mem _ _ _ hn
  have hnorm_r : normName r n = n := (hWF.tagsWF (n, conns_r) hnmem).2.1
  have hnorm : normName R n = n := by
    rw [normName_eq_of_flag r R n hInv.flag]
    exact hnorm_r
  have hn_some : (alGet r.all_tags n).isSome = true := by simp [hn]
  obtain ⟨R1, hR1new, hInv1, hLE01, hnR1⟩ :
      ∃ R1, rtNew R n true = .ok (R1, n) ∧ LoadInv r R1 ∧ RegLE R R1 ∧
        (alGet R1.all_tags n).isSome = true := by
    by_cases hnR : (alGet R.all_tags n).isSome = true
    · refine ⟨R, ?_, hInv, RegLE.refl R, hnR⟩
      rw [rtNew_run R n hnorm, if_pos hnR]
    · have habs : alGet R.all_tags n = none := by
        cases h : alGet R.all_tags n with
        | none => rfl
        | some v => rw [h] at hnR; exact absurd (by simp) hnR
      obtain ⟨hInvA, hLEA⟩ := inv_append_tag r R n hInv hn_some habs
      refine ⟨_, ?_, hInvA, hLEA, ?_⟩
      · rw [rtNew_run R n hnorm, if_neg hnR]
      · rw [show ({ R with all_tags := R.all_tags ++ [(n, [])] } :
          Registry).all_tags = R.all_tags ++ [(n, [])] from rfl,
          alGet_append_single_self _ _ _ habs]
        rfl
  obtain ⟨R', hrun, hInv', hLE1, hcompl⟩ :=
    loadConns_run r classes hWF hents n conns_r hn conns_r (fun q hq => hq)
      R1 hInv1 hnR1
  refine ⟨R', ?_, hInv', hLE01.trans hLE1, ?_⟩
  · unfold load_tag
    simp only [hR1new, if_pos, hrun]
  · refine ⟨hLE1.1 n hnR1, ?_⟩
    intro k c hc
    obtain ⟨bconns, hb1, hb2⟩ := (tagConnAt_some_iff r n k c).mp hc
    rw [hn] at hb1
    injection hb1 with hb1
    subst hb1
    have hkc_mem : (k, c) ∈ conns_r := alGet_mem _ _ _ hb2
    have := hcompl (k, c) hkc_mem
    exact this

/-- Replaying a list of saved tag dicts with the loop of `load_json`. -/
theorem loadTagsFold_run (r : Registry) (classes : List String) (hWF : WFReg r)
    (hents : EntsRegistered r classes) :
    ∀ ds : List TagDict,
      (∀ td ∈ ds, ∃ conns_r, alGet r.all_tags td.1 = some conns_r ∧
        td.2 = conns_r.map (fun q => connToRepr q.2)) →
    ∀ R, LoadInv r R →
    ∃ R' names, loadTagsFold classes true false R ds = .ok (R', names) ∧
      LoadInv r R' ∧ RegLE R R' ∧ (∀ td ∈ ds, TagComplete r R' td.1) := by
  intro ds
  induction ds with
  | nil =>
    intro _ R hInv
    exact ⟨R, [], rfl, hInv, RegLE.refl R, by simp⟩
  | cons td rest ih =>
    intro hds R hInv
    obtain ⟨tn, tl⟩ := td
    obtain ⟨conns_r, hcr, htl⟩ := hds (tn, tl) (by simp)
    simp only at htl
    subst htl
    obtain ⟨R1, hR1run, hInv1, hLE01, hcompl1⟩ :=
      load_tag_run r classes hWF hents tn conns_r hcr R hInv
    obtain ⟨R', names, hrun, hInv', hLE1, hcompl⟩ :=
      ih (fun q hq => hds q (by simp [hq])) R1 hInv1
    refine ⟨R', tn :: names, ?_, hInv', hLE01.trans hLE1, ?_⟩
    · unfold loadTagsFold
      simp only [hR1run, hrun]
    · intro q hq
      rcases List.mem_cons.mp hq with h | h
      · rw [h]
        exact hcompl1.mono hLE1
      · exact hcompl q h

/-- The replay invariant holds for the cleared registry. -/
theorem loadInv_clear (r : Registry) : LoadInv r (clear r).1 := by
  refine ⟨rfl, ?_, ?_, ?_, ?_, ?_, ?_, ?_, ?_⟩
  · intro n h
    simp [clear, alGet] at h
  · intro n k c h
    simp [clear, tagConnAt, alGet] at h
  · intro e h
    simp [clear, alGet] at h
  · intro e nm c h
    simp [clear, bucketAt, alGet] at h
  · simp [clear]
  · intro p hp
    simp [clear] at hp
  · simp [clear]
  · intro q hq
    simp [clear] at hq

/-- The serialized connection triples of a registry: every stored connection
of every tag and every reverse-index entry, identified by (source form, type
name, target form) as the serialization writes them. -/
def connReprList (r : Registry) : List (NodeRepr × ConnType × NodeRepr) :=
  (flattenTable r.all_tags).map (fun x => connToRepr x.2.2) ++
  (flattenTable r.tagged_entities).map (fun x => connToRepr x.2.2)

/-- Replaying the structural image of a well-formed registry with
registered tagged entities into the cleared registry succeeds and rebuilds
an isomorphic graph: the same set of tag names and the same multiset of
stored connections. -/
theorem saveStruct_replay (r : Registry) (classes : List String)
    (hWF : WFReg r) (hents : EntsRegistered r classes) :
    ∃ R names, loadTagsFold classes true false (clear r).1 (saveStruct r) =
        .ok (R, names) ∧
      (R.all_tags.map Prod.fst).Perm (r.all_tags.map Prod.fst) ∧
      (connReprList R : Multiset (NodeRepr × ConnType × NodeRepr)) =
        (connReprList r : Multiset (NodeRepr × ConnType × NodeRepr)) := by
  have hds : ∀ td ∈ saveStruct r, ∃ conns_r,
      alGet r.all_tags td.1 = some conns_r ∧
      td.2 = conns_r.map (fun q => connToRepr q.2) := by
    intro td htd
    obtain ⟨p, hp, hpe⟩ := List.mem_map.mp htd
    refine ⟨p.2, ?_, ?_⟩
    · rw [show td.1 = p.1 from by rw [← hpe]]
      exact alGet_eq_of_mem_nodup r.all_tags p.1 p.2 hWF.namesNodup
        (by simpa using hp)
    · rw [← hpe]
  obtain ⟨R, names, hrun, hInv, _, hcompl⟩ :=
    loadTagsFold_run r classes hWF hents (saveStruct r) hds (clear r).1
      (loadInv_clear r)
  have hcompl' : ∀ p ∈ r.all_tags, TagComplete r R p.1 := by
    intro p hp
    exact hcompl (p.1, p.2.map (fun q => connToRepr q.2))
      (List.mem_map.mpr ⟨p, hp, rfl⟩)
  have hA : ∀ n, (alGet R.all_tags n).isSome = (alGet r.all_tags n).isSome := by
    intro n
    cases hr : alGet r.all_tags n with
    | some conns =>
      have := (hcompl' (n, conns) (alGet_mem _ _ _ hr)).1
      simp [this]
    | none =>
      cases hR : alGet R.all_tags n with
      | none => simp
      | some v =>
        have := hInv.namesSub n (by simp [hR])
        rw [hr] at this
        exact absurd this (by simp)
  have hB : ∀ n k, tagConnAt R n k = tagConnAt r n k := by
    intro n k
    cases hr : tagConnAt r n k with
    | some c =>
      obtain ⟨conns, hc1, _⟩ := (tagConnAt_some_iff r n k c).mp hr
      have hsome := ((hcompl' (n, conns) (alGet_mem _ _ _ hc1)).2 k c hr).1
      obtain ⟨c', hc'⟩ := Option.isSome_iff_exists.mp hsome
      have := hInv.connsSub n k c' hc'
      rw [hr] at this
      injection this with this
      rw [hc', this]
    | none =>
      cases hR : tagConnAt R n k with
      | none => rfl
      | some c' =>
        have := hInv.connsSub n k c' hR
        rw [hr] at this
        exact absurd this (by simp)
  have hC : ∀ e nm, bucketAt R e nm = bucketAt r e nm := by
    intro e nm
    cases hr : bucketAt r e nm with
    | some c =>
      obtain ⟨bucket, hb1, hb2⟩ := (bucketAt_some_iff r e nm c).mp hr
      have hbw := hWF.bucketsWF (e, bucket) (alGet_mem _ _ _ hb1)
      have hfwd := (hbw.2 (nm, c) (alGet_mem _ _ _ hb2)).2
      obtain ⟨nmconns, hnm1, _⟩ :=
        (tagConnAt_some_iff r nm (.ent e) _).mp hfwd
      have hsome := (((hcompl' (nm, nmconns) (alGet_mem _ _ _ hnm1)).2
        (.ent e) _ hfwd).2 e rfl)
      obtain ⟨c', hc'⟩ := Option.isSome_iff_exists.mp hsome
      have := hInv.bucketsSub e nm c' hc'
      rw [hr] at this
      injection this with this
      rw [hc', this]
    | none =>
      cases hR : bucketAt R e nm with
      | none => rfl
      | some c' =>
        have := hInv.bucketsSub e nm c' hR
        rw [hr] at this
        exact absurd this (by simp)
  have hpermTags : (flattenTable R.all_tags).Perm (flattenTable r.all_tags) := by
    refine flattenTable_perm R.all_tags r.all_tags hInv.namesNodup
      hInv.connsNodup hWF.namesNodup (fun q hq => (hWF.tagsWF q hq).1) ?_
    intro k k2
    rw [← tagConnAt_eq_tableAt, ← tagConnAt_eq_tableAt]
    exact hB k k2
  have hpermBuckets : (flattenTable R.tagged_entities).Perm
      (flattenTable r.tagged_entities) := by
    refine flattenTable_perm R.tagged_entities r.tagged_entities hInv.entsNodup
      hInv.bucketsNodup hWF.entsNodup (fun q hq => (hWF.bucketsWF q hq).1) ?_
    intro k k2
    rw [← bucketAt_eq_tableAt, ← bucketAt_eq_tableAt]
    exact hC k k2
  refine ⟨R, names, hrun, ?_, ?_⟩
  · exact keys_perm R.all_tags r.all_tags hInv.namesNodup hWF.namesNodup hA
  · rw [Multiset.coe_eq_coe]
    unfold connReprList
    exact (hpermTags.map _).append (hpermBuckets.map _)

/-- On parsed values in the image of the structural serialization, the
`load_json` loop agrees with the structural replay loop: each tag object
converts back to its tag dict at the `load_tag` boundary. -/
theorem loadTagsFoldJson_struct (classes : List String)
    (gie skip : Bool) (tds : List TagDict)
    (h : ∀ td ∈ tds, ∀ x ∈ td.2,
      reprNotOther x.1 = true ∧ reprNotOther x.2.2 = true) :
    ∀ r, loadTagsFoldJson classes gie skip r (tds.map tagDictJson)
      = loadTagsFold classes gie skip r tds := by
  induction tds with
  | nil => intro r; rfl
  | cons td tds ih =>
    intro r
    have htd := h td (by simp)
    have hrw : load_tag_json classes r (tagDictJson td) gie skip
        = load_tag classes r td gie skip := by
      unfold load_tag_json
      rw [jsonToTagDict_roundtrip td htd]
    show loadTagsFoldJson classes gie skip r
        (tagDictJson td :: tds.map tagDictJson) = _
    unfold loadTagsFoldJson loadTagsFold
    rw [hrw]
    cases hlt : load_tag classes r td gie skip with
    | error e => simp [hlt]
    | ok p =>
      obtain ⟨r1, tname⟩ := p
      simp [hlt, ih (fun td2 h2 => h td2 (List.mem_cons_of_mem _ h2)) r1]

/-- In a well-formed registry with registered tagged entities, every stored
connection runs from a tag to a tag or to a registered entity: exactly the
endpoints whose serialized form is faithful json. -/
theorem wf_rentOrTag (r : Registry) (classes : List String) (hWF : WFReg r)
    (hents : EntsRegistered r classes) :
    ∀ p ∈ r.all_tags, ∀ q ∈ p.2,
      nodeRentOrTag q.2.source ∧ nodeRentOrTag q.2.target := by
  intro p hp q hq
  obtain ⟨k, c⟩ := q
  obtain ⟨hsrc, htgt, hrest⟩ := (hWF.tagsWF p hp).2.2 (k, c) hq
  refine ⟨Or.inl ⟨p.1, hsrc⟩, ?_⟩
  show nodeRentOrTag c.target
  rw [htgt]
  cases k with
  | tag b => exact Or.inl ⟨b, rfl⟩
  | ent e =>
    obtain ⟨bucket, hb, _⟩ := (bucketAt_some_iff r e p.1 _).mp hrest.2
    obtain ⟨cls, data, hcls, _⟩ := hents (e, bucket) (alGet_mem _ _ _ hb)
    exact Or.inr ⟨cls, data, by rw [show e = Ent.rent cls data from hcls]⟩

/-- The structural image of a well-formed registry with registered entities
has no raw (`other`) endpoint form. -/
theorem saveStruct_notOther (r : Registry) (classes : List String)
    (hWF : WFReg r) (hents : EntsRegistered r classes) :
    ∀ td ∈ saveStruct r, ∀ x ∈ td.2,
      reprNotOther x.1 = true ∧ reprNotOther x.2.2 = true := by
  intro td htd x hx
  obtain ⟨p, hp, hpe⟩ := List.mem_map.mp htd
  subst hpe
  obtain ⟨q, hq, hqe⟩ := List.mem_map.mp hx
  subst hqe
  have hro := wf_rentOrTag r classes hWF hents p hp q hq
  exact ⟨reprNotOther_of_rentOrTag _ hro.1,
    reprNotOther_of_rentOrTag _ hro.2⟩

/-- C2 (corrected): for a well-formed registry whose tagged entities are all
instances of registered `RelationalEntity` subclasses AND whose saved form
interpolates only json-safe strings (no quotes, backslashes or control
characters in tag names or entity fields), saving with `save_json` and
reloading the emitted text with `load_json` into the cleared registry
succeeds and yields an isomorphic graph: the same set of tag names, and the
same multiset of stored connections identified by (source form, type,
target name or entity serialized form).  Without the json-safety condition
the round trip fails: the formatting is unescaped, so a quote inside a tag
name yields text that `json.loads` rejects. -/
theorem save_load_roundtrip (r : Registry) (classes : List String)
    (hWF : WFReg r) (hents : EntsRegistered r classes)
    (hsafe : jsonSafe (saveJsonValue r) = true) :
    ∃ R, load_json classes (clear r).1 (save_json r) true false = .ok R ∧
      (R.all_tags.map Prod.fst).Perm (r.all_tags.map Prod.fst) ∧
      (connReprList R : Multiset (NodeRepr × ConnType × NodeRepr)) =
        (connReprList r : Multiset (NodeRepr × ConnType × NodeRepr)) := by
  obtain ⟨R, names, hrun, hperm, hms⟩ := saveStruct_replay r classes hWF hents
  refine ⟨R, ?_, hperm, hms⟩
  have hparse : jsonLoads (save_json r) = some (saveJsonValue r) := by
    rw [save_json_eq r (wf_rentOrTag r classes hWF hents)]
    exact jsonLoads_printJson _ hsafe
  unfold load_json
  rw [hparse]
  show (match loadTagsFoldJson classes true false (clear r).1
      ((saveStruct r).map tagDictJson) with
    | .error e => Except.error e
    | .ok (r1, ns) => Except.ok (load_list r1 ns)) = Except.ok R
  rw [loadTagsFoldJson_struct classes true false (saveStruct r)
    (saveStruct_notOther r classes hWF hents) (clear r).1, hrun]
  show Except.ok (load_list R names) = Except.ok R
  rw [load_list_id]

/-- A well-formed registry holding one tag whose name contains a double
quote. -/
def regBad : Registry := ⟨true, [("a\"b", [])], []⟩

/-- C2 counterexample: the round trip fails on a well-formed registry (with
no tagged entities at all, so every entity is trivially registered) whose
single tag is named `a"b`.  `save_json` interpolates the name unescaped and
emits the malformed text `[{"a"b":[]}]`, which `json.loads` rejects, so
`load_json` raises the decode error instead of rebuilding the graph. -/
theorem save_load_quote_name_fails :
    WFReg regBad ∧ EntsRegistered regBad [] ∧
    save_json regBad = "[\x7b\"a\"b\":[]\x7d]" ∧
    load_json [] (clear regBad).1 (save_json regBad) true false =
      Except.error PyErr.jsonDecodeError := by
  refine ⟨⟨?_, ?_, ?_, ?_⟩, ?_, rfl, rfl⟩
  · decide
  · decide
  · intro p hp
    simp only [show regBad.all_tags = [("a\"b", [])] from rfl,
      List.mem_singleton] at hp
    subst hp
    refine ⟨by decide, rfl, ?_⟩
    intro q hq
    exact absurd hq (by simp)
  · intro q hq
    exact absurd hq (by simp [regBad])
  · intro q hq
    exact absurd hq (by simp [regBad])

/-- A concrete registry for the round-trip witness: tags `x` and `y` with a
parent connection, and `x` connected to a registered relational entity. -/
def regC2 : Registry :=
  match connect regP (.node (.tag "x")) (some (.ent (.rent "E" "d")))
      (some .toEnt) with
  | .ok p => p.1
  | .error _ => regP

/-- The registry produced by reloading the saved text of `regC2`. -/
def regC2load : Registry :=
  match load_json ["E"] (clear regC2).1 (save_json regC2) true false with
  | .ok R => R
  | .error _ => regC2

/-- The witness registry is well-formed. -/
theorem wfRegC2 : WFReg regC2 := by
  have hreg : regC2 = ⟨true,
      [("x", [(Node.tag "y", ⟨Node.tag "x", Node.tag "y", ConnType.toTagParent⟩),
        (Node.ent (Ent.rent "E" "d"),
          ⟨Node.tag "x", Node.ent (Ent.rent "E" "d"), ConnType.toEnt⟩)]),
       ("y", [(Node.tag "x", ⟨Node.tag "y", Node.tag "x", ConnType.toTagChild⟩)])],
      [(Ent.rent "E" "d", [("x",
        ⟨Node.ent (Ent.rent "E" "d"), Node.tag "x", ConnType.entToTag⟩)])]⟩ := rfl
  refine ⟨by decide, by decide, ?_, ?_⟩
  · intro p hp
    rw [hreg] at hp
    simp only [List.mem_cons, List.mem_singleton, List.not_mem_nil, or_false] at hp
    rcases hp with hp | hp
    · subst hp
      refine ⟨by decide, rfl, ?_⟩
      intro q hq
      simp only [List.mem_cons, List.mem_singleton, List.not_mem_nil, or_false] at hq
      rcases hq with hq | hq
      · subst hq
        exact ⟨rfl, rfl, rfl, rfl⟩
      · subst hq
        exact ⟨rfl, rfl, rfl, rfl⟩
    · subst hp
      refine ⟨by decide, rfl, ?_⟩
      intro q hq
      simp only [List.mem_singleton] at hq
      subst hq
      exact ⟨rfl, rfl, rfl, rfl⟩
  · intro q hq
    rw [hreg] at hq
    simp only [List.mem_singleton] at hq
    subst hq
    refine ⟨by decide, ?_⟩
    intro p hp
    simp only [List.mem_singleton] at hp
    subst hp
    exact ⟨rfl, rfl⟩

/-- The witness registry's tagged entities are registered. -/
theorem entsRegC2 : EntsRegistered regC2 ["E"] := by
  intro q hq
  simp only [show regC2.tagged_entities = [(Ent.rent "E" "d", [("x",
    ⟨Node.ent (Ent.rent "E" "d"), Node.tag "x", ConnType.entToTag⟩)])] from rfl,
    List.mem_singleton] at hq
  subst hq
  exact ⟨"E", "d", rfl, by simp⟩

/-- Witness for the C2 theorem at the concrete registry: its save text is
json-safe, and the reload reproduces the graph. -/
theorem save_load_roundtrip_witness :
    jsonSafe (saveJsonValue regC2) = true ∧
    (regC2load.all_tags.map Prod.fst).Perm (regC2.all_tags.map Prod.fst) ∧
    (connReprList regC2load : Multiset (NodeRepr × ConnType × NodeRepr)) =
      (connReprList regC2 : Multiset (NodeRepr × ConnType × NodeRepr)) := by
  refine ⟨rfl, ?_⟩
  obtain ⟨R, hok, hperm, hms⟩ :=
    save_load_roundtrip regC2 ["E"] wfRegC2 entsRegC2 rfl
  have hr : (Except.ok regC2load : Except PyErr Registry) = .ok R := by
    rw [show (Except.ok regC2load : Except PyErr Registry) =
      load_json ["E"] (clear regC2).1 (save_json regC2) true false from rfl,
      hok]
  injection hr with hr2
  rw [hr2]
  exact ⟨hperm, hms⟩
